import Mathlib

/-!
# Verification of the Compass Unified Parser core

A shallow embedding, in Lean 4, of the core data model and operations of the
Compass Unified Parser (`UnifiedParser`): the versioned attribute model of
`ops/op.py`, the tensor/graph bookkeeping used by shape inference, the
layout/padding conversion helpers, the broadcast machinery of
`OpNeedBroadcast`, and the per-pass driver of `univ_main.py`.

Python functions are translated into executable Lean definitions; machine
behaviour that can fail (asserts, exceptions) is modelled with `Option` /
`Except`.  Components of the repository that are referenced but whose source
is not part of the code base under study (the graph store, the `Attribute`
and `Tensor` records of `common/defs.py`) are modelled from the written
specification and marked as such in their doc comments.
-/

namespace CompassParser

/-! ## Layout conversion helpers (`Op.shape_nchw_to_nhwc` / `Op.shape_nhwc_to_nchw`)

`ops/op.py` lines 56-74.  Both functions assert `len(shape) == 4` and then
permute the entries with the constant index vectors `[0,2,3,1]` and
`[0,3,1,2]`.  The assert is modelled by returning `none`.
-/

/-- `Op.shape_nchw_to_nhwc`: permutes a rank-4 shape with index `[0,2,3,1]`;
the `assert len(shape) == 4` is modelled as `none`. -/
def shape_nchw_to_nhwc (shape : List Int) : Option (List Int) :=
  match shape with
  | [n, c, h, w] => some [n, h, w, c]
  | _ => none

/-- `Op.shape_nhwc_to_nchw`: permutes a rank-4 shape with index `[0,3,1,2]`;
the `assert len(shape) == 4` is modelled as `none`. -/
def shape_nhwc_to_nchw (shape : List Int) : Option (List Int) :=
  match shape with
  | [n, h, w, c] => some [n, c, h, w]
  | _ => none

/-! ## Padding layout conversion (`OpHasPaddingStrides.onnx_to_tf` / `tf_to_onnx`)

`ops/op.py` lines 884-902.  `onnx_to_tf` takes a flat ONNX pads list
`[b1..bm, e1..em]`, reshapes it to `(2, m)`, transposes to `(m, 2)` and
embeds it into a zero-initialised `(m+2, 2)` array.  `tf_to_onnx` transposes
a `(m+2, 2)` array and (by default) drops the first and last column before
flattening.  Rows are modelled as pairs.
-/

/-- `OpHasPaddingStrides.onnx_to_tf`: the `assert len(pads) % 2 == 0` is
modelled as `none`; the result is the list of rows of the `(m+2, 2)` array. -/
def onnx_to_tf (pads : List Int) : Option (List (Int × Int)) :=
  if pads.length % 2 = 0 then
    let m := pads.length / 2
    let begins := pads.take m
    let ends := pads.drop m
    some ((0, 0) :: (List.zip begins ends ++ [(0, 0)]))
  else
    none

/-- `OpHasPaddingStrides.tf_to_onnx`: transposes `(m+2, 2)` row pairs into two
columns, drops the first and last entry of each column unless `as_full`, and
flattens in row-major order (first column, then second column). -/
def tf_to_onnx (paddings : List (Int × Int)) (as_full : Bool) : List Int :=
  let firsts := paddings.map Prod.fst
  let seconds := paddings.map Prod.snd
  if as_full then firsts ++ seconds
  else firsts.tail.dropLast ++ seconds.tail.dropLast

/-! ## The attribute value model

`ops/op.py` stores attribute values as plain Python values.  We model the
values that flow through the attribute machinery: `None`, ints, floats
(modelled as rationals), strings, and the homogeneous lists produced by the
INTS / FLOATS / STRINGS coercions, plus an opaque tensor id.
-/

/-- A Python attribute value as used by the attribute model of `ops/op.py`. -/
inductive PyVal where
  | none
  | int (n : Int)
  | float (q : Rat)
  | str (s : String)
  | bool (b : Bool)
  | intList (l : List Int)
  | floatList (l : List Rat)
  | strList (l : List String)
  | tensor (id : Nat)
  deriving DecidableEq, Repr

/-- The semantic attribute types of `AttrType` (`common/defs.py`); the set of
tags is fixed by their uses in `ops/op.py` (`Op.__setattr__`, lines 162-190,
and the `attributes()` schemas). -/
inductive AttrType where
  | STRING | INT | INTS | FLOAT | FLOATS | STRINGS | BOOL
  | TENSOR | TENSORS | UNDEFINED
  deriving DecidableEq, Repr

namespace PyVal

/-- Python truthiness of a value is not needed; Python `Iterable` membership
is: lists and strings are iterable, scalars and `None` are not. -/
def iterable : PyVal → Bool
  | intList _ | floatList _ | strList _ | str _ => true
  | _ => false

/-- Python `int(value)`: `none` on the values where Python `int()` raises. -/
def pyInt : PyVal → Option Int
  | int n => some n
  | float q => some (q.num / (q.den : Int))
  | bool b => some (if b then 1 else 0)
  | str s => s.toInt?
  | _ => Option.none

/-- Python `float(value)`: `none` where Python `float()` raises (the string
case is modelled through integer parsing). -/
def pyFloat : PyVal → Option Rat
  | int n => some (n : Rat)
  | float q => some q
  | bool b => some (if b then 1 else 0)
  | str s => (s.toInt?).map (fun n => (n : Rat))
  | _ => Option.none

/-- Python `str(value)`: a fixed rendering; on strings it is the identity,
as in Python. -/
def pyStr : PyVal → String
  | str s => s
  | int n => toString n
  | float q => toString q.num ++ "/" ++ toString q.den
  | bool b => if b then "True" else "False"
  | none => "None"
  | intList l => toString l
  | floatList l => toString (l.map Rat.num)
  | strList l => toString l
  | tensor i => "tensor" ++ toString i

/-- The element list of an iterable value, as plain values; a string
iterates over its one-character substrings, as in Python. -/
def elements : PyVal → List PyVal
  | intList l => l.map int
  | floatList l => l.map float
  | strList l => l.map str
  | str s => s.toList.map (fun c => str (String.mk [c]))
  | _ => []

end PyVal

/-- The per-type value coercion done by `Op.__setattr__`
(`ops/op.py` lines 170-187): STRING applies `str`, INT applies `int`,
INTS maps `int` over the value (wrapping a non-iterable scalar into a
one-element list), FLOAT and FLOATS likewise with `float`; every other
type keeps the value unchanged.  A raised Python conversion error is
modelled as `none`. -/
def coerceValue (t : AttrType) (v : PyVal) : Option PyVal :=
  match t with
  | .STRING => some (.str v.pyStr)
  | .INT => (v.pyInt).map .int
  | .INTS =>
      if v.iterable then
        (v.elements.mapM PyVal.pyInt).map .intList
      else
        (v.pyInt).map (fun n => .intList [n])
  | .FLOAT => (v.pyFloat).map .float
  | .FLOATS =>
      if v.iterable then
        (v.elements.mapM PyVal.pyFloat).map .floatList
      else
        (v.pyFloat).map (fun q => .floatList [q])
  | _ => some v

/-! ## The `Attribute` record and `check_required`

The `Attribute` class lives in `common/defs.py`, which is not part of the
code base under study; only its field accesses from `ops/op.py` are visible
(`type`, `value`, `required`, `options`, `default`).
-/

/-- Modelled from the spec: the `Attribute` record of `common/defs.py`
("Attribute: name, semantic type (string/int/ints/float/floats/strings/
tensor/tensors/undefined), default, required flag, allowed-options list,
current value"); a missing value or default is Python `None`
(`PyVal.none`). -/
structure PAttribute where
  type : AttrType := .UNDEFINED
  default : PyVal := .none
  required : Bool := false
  options : List PyVal := []
  value : PyVal := .none
  deriving DecidableEq, Repr

/-- One slot of an Op's `_attr` dictionary: either a schema-backed
`Attribute` object or a raw value stored by the fallback branch of
`Op.__setattr__` (line 190). -/
inductive AttrEntry where
  | attrObj (a : PAttribute)
  | raw (v : PyVal)
  deriving DecidableEq, Repr

/-- `Op.check_required` (`ops/op.py` lines 248-261): abstract classes pass
trivially; otherwise every `Attribute` entry must have a value when marked
required, and a value contained in its options when the options list is
non-empty.  Non-`Attribute` (raw) entries are skipped by the
`isinstance(v, Attribute)` test. -/
def check_required (isAbstract : Bool) (attrs : List (String × AttrEntry)) :
    Bool :=
  if isAbstract then true
  else attrs.all fun kv =>
    match kv.2 with
    | .raw _ => true
    | .attrObj a =>
        !(a.required && a.value = PyVal.none) &&
        !(!a.options.isEmpty && !(a.value ∈ a.options))

/-! ## `Op.update_attributes` (`ops/op.py` lines 192-242)

`update_attributes` walks the class schema (`cls.attributes()`); for each
declared attribute it takes the provided value when the key is in
`attr_dict`, otherwise the schema default when one is declared, and stores
the result as an `Attribute` object.  The `Attribute` class itself lives in
`common/defs.py`, outside the code base under study; following the spec it
performs the per-type coercion (the same coercion `Op.__setattr__` uses,
lines 170-187) and raises an attribute error when a value violates its
declared options.
-/

/-- One entry of a class schema dictionary (`attributes()`), e.g.
`{'type': AttrType.STRING, 'default': 'NHWC', 'options': [...],
'required': True}`; a schema may omit the default. -/
structure AttrSchema where
  type : AttrType := .UNDEFINED
  default : Option PyVal := Option.none
  required : Bool := false
  options : List PyVal := []
  deriving DecidableEq, Repr

/-- Python dict lookup on an association list (first match). -/
def lookupVal (d : List (String × PyVal)) (k : String) : Option PyVal :=
  (d.find? (fun kv => kv.1 = k)).map (·.2)

/-- The value an attribute receives during `update_attributes`: the provided
value when the key is in `attr_dict`, else the schema default when declared,
else no value at all (lines 198-203). -/
def mergedValue (provided : List (String × PyVal)) (k : String)
    (sch : AttrSchema) : Option PyVal :=
  (lookupVal provided k).orElse (fun _ => sch.default)

/-- Modelled from the spec: construction of an `Attribute` object
(`common/defs.py`, not under src): "performing per-attribute type coercion
(string/int/float and their list variants); raises an attribute error when
a value violates its declared options".  The coercion applied is the one
`Op.__setattr__` implements in src. -/
def mkAttribute (sch : AttrSchema) (mv : Option PyVal) :
    Except String PAttribute :=
  match mv with
  | Option.none =>
      .ok { type := sch.type, default := sch.default.getD .none,
            required := sch.required, options := sch.options, value := .none }
  | some v =>
      match coerceValue sch.type v with
      | Option.none => .error "attribute coercion failure"
      | some cv =>
          if !sch.options.isEmpty && !(cv ∈ sch.options) then
            .error "attribute value not in options"
          else
            .ok { type := sch.type, default := sch.default.getD .none,
                  required := sch.required, options := sch.options,
                  value := cv }

/-- `Op.update_attributes` on a fresh `_attr` map (the constructor path,
lines 196-207): walks the schema in declaration order, merging defaults
with provided values; the first attribute error aborts the update. -/
def update_attributes : List (String × AttrSchema) → List (String × PyVal) →
    Except String (List (String × AttrEntry))
  | [], _ => .ok []
  | (k, sch) :: rest, provided =>
      match mkAttribute sch (mergedValue provided k sch) with
      | .error e => .error e
      | .ok a =>
          match update_attributes rest provided with
          | .error e => .error e
          | .ok tail => .ok ((k, AttrEntry.attrObj a) :: tail)

/-- The attribute an entry is expected to hold after a successful
`update_attributes`: the merged value coerced to the declared type. -/
def expectedAttr (sch : AttrSchema) (mv : Option PyVal) : PAttribute :=
  match mv with
  | Option.none =>
      { type := sch.type, default := sch.default.getD .none,
        required := sch.required, options := sch.options, value := .none }
  | some v =>
      { type := sch.type, default := sch.default.getD .none,
        required := sch.required, options := sch.options,
        value := (coerceValue sch.type v).getD .none }

/-! ## Version resolution (`OnnxOp.cal_ver`)

`ops/op.py` lines 1735-1755.  `cal_ver` receives the requested
`opset_version` and the list of schema versions declared by the kind's
`attributes()` dictionary, in declaration order.  If the requested version
is declared it is returned; otherwise `np.where` selects the positions of
the declared versions `≤` the request and the version at the *last* such
position is returned; when no position qualifies an unsupported-version
error is raised (`ERROR`, followed by the failing
`assert cur_version in cls_attrs` in `Op.update_attributes`, lines
221-223). -/

/-- `OnnxOp.cal_ver`: `verList` is the kind's declared schema version list in
declaration order; `none` models the unsupported-version error path. -/
def cal_ver (verList : List Nat) (opset : Nat) : Option Nat :=
  if opset ∈ verList then some opset
  else (verList.filter (· ≤ opset)).getLast?

/-- Construction's version resolution (`OnnxOp.__init__` +
`Op.update_attributes`): a failed `cal_ver` surfaces as an
unsupported-version error. -/
def resolveVersion (verList : List Nat) (opset : Nat) : Except String Nat :=
  match cal_ver verList opset with
  | some v => .ok v
  | Option.none => .error "unsupported opset version"

/-! ## The graph store

The graph store (`graph/graph.py`, `graph/graph_algo.py`) is not part of the
code base under study; `ops/op.py` and the spec describe its contract: a
multigraph whose edges are identified by `(src, dst, key)`, carry
`src_out_port` / `dst_in_port` attributes and an optional `Tensor`;
`add_edge` auto-allocates the next unused key for `(src, dst)` and creates
absent endpoints; `sorted_in_edges` / `sorted_out_edges` return edges in
ascending `(port, key)` order.
-/

/-- The payload of a concrete tensor value; only its shape matters to the
bookkeeping under study. -/
structure TData where
  shape : List Nat := []
  deriving DecidableEq, Repr

/-- Modelled from the spec: the `Tensor` record of `common/defs.py`
("Tensor: optional value, optional shape, dtype, is_const flag, optional
min/max range"); `is_const` defaults to `false` (a fresh tensor is not
known constant). -/
structure NTensor where
  value : Option TData := Option.none
  shape : Option (List Nat) := Option.none
  is_const : Bool := false
  deriving DecidableEq, Repr

/-- Modelled from the spec: one multigraph edge, identified by
`(src, dst, key)`, with port attributes and an optional tensor. -/
structure GEdge where
  src : String
  dst : String
  key : Nat := 0
  srcOutPort : Nat := 0
  dstInPort : Nat := 0
  tensor : Option NTensor := Option.none
  deriving DecidableEq, Repr

/-- Modelled from the spec: the graph store owns nodes and keyed
multi-edges. -/
structure PGraph where
  nodes : List String := []
  edges : List GEdge := []
  deriving DecidableEq, Repr

/-- The keys already used by edges between `src` and `dst`. -/
def usedKeys (g : PGraph) (src dst : String) : List Nat :=
  (g.edges.filter (fun e => e.src = src ∧ e.dst = dst)).map (fun e => e.key)

/-- The next unused key: the smallest natural number not in `used` (one of
`0 .. used.length` is always free). -/
def leastUnusedKey (used : List Nat) : Nat :=
  (((List.range (used.length + 1)).filter (fun k => k ∉ used)).headD 0)

/-- Modelled from the spec: `add_edge(src, dst, src_out_port, dst_in_port,
tensor?)` without an explicit key — "creates dst if absent; auto-allocates
the next unused key for (src,dst) when key is omitted". -/
def add_edge (g : PGraph) (src dst : String) (srcPort dstPort : Nat)
    (t : Option NTensor) : PGraph :=
  let key := leastUnusedKey (usedKeys g src dst)
  let nodes1 := if src ∈ g.nodes then g.nodes else g.nodes ++ [src]
  let nodes2 := if dst ∈ nodes1 then nodes1 else nodes1 ++ [dst]
  let newEdge : GEdge :=
    { src := src, dst := dst, key := key, srcOutPort := srcPort,
      dstInPort := dstPort, tensor := t }
  { nodes := nodes2, edges := g.edges ++ [newEdge] }

/-- Ordering of out-edges: ascending `(src_out_port, key)`. -/
def outEdgeLE (a b : GEdge) : Prop :=
  a.srcOutPort < b.srcOutPort ∨ (a.srcOutPort = b.srcOutPort ∧ a.key ≤ b.key)

instance : DecidableRel outEdgeLE := fun a b => by
  unfold outEdgeLE
  infer_instance

instance : IsTotal GEdge outEdgeLE :=
  ⟨fun a b => by unfold outEdgeLE; omega⟩

instance : IsTrans GEdge outEdgeLE :=
  ⟨fun a b c h1 h2 => by unfold outEdgeLE at *; omega⟩

/-- Ordering of in-edges: ascending `(dst_in_port, key)`. -/
def inEdgeLE (a b : GEdge) : Prop :=
  a.dstInPort < b.dstInPort ∨ (a.dstInPort = b.dstInPort ∧ a.key ≤ b.key)

instance : DecidableRel inEdgeLE := fun a b => by
  unfold inEdgeLE
  infer_instance

/-- Modelled from the spec: `sorted_out_edges(node)` — "returns edges
ordered ascending by (port, key)". -/
def sorted_out_edges (g : PGraph) (n : String) : List GEdge :=
  List.insertionSort outEdgeLE (g.edges.filter (fun e => e.src = n))

/-- Modelled from the spec: `sorted_in_edges(node)` — "returns edges
ordered ascending by (port, key)". -/
def sorted_in_edges (g : PGraph) (n : String) : List GEdge :=
  List.insertionSort inEdgeLE (g.edges.filter (fun e => e.dst = n))

/-- The pairwise-distinct-keys invariant: edges between the same
`(src, dst)` pair never share a key. -/
def distinctKeys (g : PGraph) : Prop :=
  g.edges.Pairwise (fun a b => a.src = b.src → a.dst = b.dst → a.key ≠ b.key)

instance (g : PGraph) : Decidable (distinctKeys g) := by
  unfold distinctKeys
  infer_instance

/-- A sequence of key-less `add_edge` requests
`(src, dst, src_out_port, dst_in_port)` applied in order. -/
def applyAddEdges (g : PGraph) (reqs : List (String × String × Nat × Nat)) :
    PGraph :=
  reqs.foldl (fun acc r => add_edge acc r.1 r.2.1 r.2.2.1 r.2.2.2 Option.none)
    g

/-! ## Constness bookkeeping (`Op.is_all_inputs_const`,
`OpHasOneOutPort.set_out_tensor`, `OpHasMultipleOutPorts.set_out_tensor`)

`ops/op.py` lines 326-333, 446-463 and 476-512.  An op's const-likeness is
the `isinstance(self, ConstLikeOp)` test; a missing tensor on an in-edge
raises inside the list comprehension, modelled as `none` (the exception is
caught by `set_out_tensor`'s `try`, which then leaves the graph alone).
-/

/-- `Op.is_all_inputs_const` (lines 326-333): const-like ops answer `true`
outright; otherwise the in-edge tensors' `is_const` flags are collected and
the answer is `true` exactly when the list is non-empty and all-true. -/
def is_all_inputs_const (constLike : Bool) (g : PGraph) (n : String) :
    Option Bool :=
  if constLike then some true
  else
    ((sorted_in_edges g n).mapM (fun (e : GEdge) => e.tensor)).map
      (fun ts => !ts.isEmpty && ts.all (fun t => t.is_const))

/-- `Tensor(value=tensor_data)` (line 457): a fresh tensor with default
`is_const = false`. -/
def mkTensorFromValue (v : Option TData) : NTensor :=
  { value := v, shape := Option.none, is_const := false }

/-- The tensor an existing out-edge tensor becomes after `set_out_tensor`
with a non-`None` value `d` and computed constness `c`. -/
def constTensor (d : TData) (c : Bool) : NTensor :=
  { value := some d, shape := some d.shape, is_const := c }

/-- The per-edge tensor update of `OpHasOneOutPort.set_out_tensor` (lines
450-457): an existing tensor gets the new value, and — only when the value
is not `None` — its shape and the computed `is_const`; an edge without a
tensor gets a fresh default tensor holding the value. -/
def updateEdgeTensorOne (c : Bool) (td : Option TData) (e : GEdge) : GEdge :=
  match e.tensor with
  | some t =>
      let t1 : NTensor :=
        { value := td,
          shape := match td with
                   | some d => some d.shape
                   | Option.none => t.shape,
          is_const := if td.isSome then c else t.is_const }
      { e with tensor := some t1 }
  | Option.none => { e with tensor := some (mkTensorFromValue td) }

/-- `OpHasOneOutPort.set_out_tensor` (lines 446-463): computes
`is_all_inputs_const`, then updates the tensor of every out-edge; an
exception (missing in-edge tensor) is caught and logged, leaving the graph
unchanged. -/
def set_out_tensor_one (constLike : Bool) (g : PGraph) (n : String)
    (td : Option TData) : PGraph :=
  match is_all_inputs_const constLike g n with
  | Option.none => g
  | some c =>
      { g with edges := g.edges.map (fun e =>
          if e.src = n then updateEdgeTensorOne c td e else e) }

/-- The claim's fully-constant predicate, written from the spec sentence "a
node is fully-constant iff all its inputs are marked is_const (or it is
itself input-free and const-like)", for comparison with
`is_all_inputs_const`. -/
def claimedFullyConst (constLike : Bool) (g : PGraph) (n : String) : Bool :=
  ((sorted_in_edges g n).all (fun e =>
      match e.tensor with
      | some t => t.is_const
      | Option.none => false)) ||
  ((sorted_in_edges g n).isEmpty && constLike)

/-! ## Multi-output fan-out (`OpHasMultipleOutPorts.set_out_tensor`)

`ops/op.py` lines 476-512, together with `Op.get_out_ports` (lines
379-383).  When inference produces more tensors than there are wired output
ports, anonymous `Out` sink nodes are created (via `get_valid_node_name`
and `add_edge`) for every unwired port index below the tensor count.
-/

/-- `Op.get_out_ports` (lines 379-383): the sorted set of `src_out_port`
values of the node's out-edges. -/
def get_out_ports (g : PGraph) (n : String) : List Nat :=
  List.insertionSort (· ≤ ·)
    (((sorted_out_edges g n).map (fun e => e.srcOutPort)).dedup)

/-- The longest node-name length of the graph. -/
def maxNameLen (g : PGraph) : Nat :=
  (g.nodes.map String.length).foldr max 0

/-- Modelled from the spec: `get_valid_node_name` (`graph/graph_algo.py`,
not under src) returns a name, derived from the requested base, that is not
yet used by any node; freshness is realised here by padding beyond every
existing name's length. -/
def freshName (g : PGraph) (base : String) : String :=
  base ++ String.mk (List.replicate (maxNameLen g + 1) '_')

/-- One sink creation of `set_out_tensor` (lines 485-491): a fresh `Out`
node named after the port, wired by a key-less `add_edge` from port `i` to
its port 0. -/
def addSinkEdge (g : PGraph) (n : String) (i : Nat) : PGraph :=
  let out := freshName g (n ++ "_out_port_" ++ toString i)
  add_edge g n out i 0 Option.none

/-- The per-edge tensor update of `OpHasMultipleOutPorts.set_out_tensor`
(lines 499-506); unlike the one-out-port variant, a fresh tensor is created
with the computed `is_const` (line 506). -/
def updateEdgeTensorMulti (c : Bool) (td : Option TData) (e : GEdge) :
    GEdge :=
  match e.tensor with
  | some t =>
      let t1 : NTensor :=
        { value := td,
          shape := match td with
                   | some d => some d.shape
                   | Option.none => t.shape,
          is_const := if td.isSome then c else t.is_const }
      { e with tensor := some t1 }
  | Option.none =>
      let t1 : NTensor :=
        { value := td, shape := Option.none, is_const := c }
      { e with tensor := some t1 }

/-- One iteration of the sink-creation loop (lines 484-491): ports already
wired (in the pre-loop `out_ports` list) are skipped, every other port
index gets a fresh sink. -/
def sinkStep (n : String) (outPorts : List Nat) (acc : PGraph) (i : Nat) :
    PGraph :=
  if i ∈ outPorts then acc else addSinkEdge acc n i

/-- `OpHasMultipleOutPorts.set_out_tensor` (lines 476-512): when more
tensors are produced than distinct wired ports exist, a sink is added for
every unwired port index below the tensor count (the wired-port list is the
one computed before the loop); then every out-edge whose port is below the
tensor count receives the port's tensor. -/
def set_out_tensor_multi (constLike : Bool) (g : PGraph) (n : String)
    (tds : List (Option TData)) : PGraph :=
  match is_all_inputs_const constLike g n with
  | Option.none => g
  | some c =>
      let outPorts := get_out_ports g n
      let g1 :=
        if outPorts.length < tds.length then
          (List.range tds.length).foldl (sinkStep n outPorts) g
        else g
      let outPorts1 := get_out_ports g1 n
      { g1 with edges := g1.edges.map (fun e =>
          if e.src = n ∧ e.srcOutPort < tds.length ∧
              e.srcOutPort ∈ outPorts1 then
            updateEdgeTensorMulti c (tds.getD e.srcOutPort Option.none) e
          else e) }

/-! ## Broadcast machinery (`OpNeedBroadcast`, `ops/op.py` lines 1518-1610)

`cal_reshape_and_tile` computes, from the input shapes, a reshape (rank
alignment by inserting size-1 dims) and a tile (repetition counts) per
input; `broad_cast` applies them with `np.reshape` / `np.tile`.  Tensors
are modelled as a shape plus row-major flat contents, which makes
`np.reshape` a pure shape change and lets `np.tile` / `np.broadcast_to` be
expressed through multi-index flattening.
-/

/-- Row-major flattening of a multi-index against a shape. -/
def flatten : List Nat → List Nat → Nat
  | [], _ => 0
  | _ :: _, [] => 0
  | _ :: ds, i :: ix => i * ds.prod + flatten ds ix

/-- Row-major unflattening of a flat index against a shape. -/
def unflatten : List Nat → Nat → List Nat
  | [], _ => []
  | _ :: ds, k => (k / ds.prod) :: unflatten ds (k % ds.prod)

/-- An n-dimensional array: a shape and row-major flat contents (an
arbitrary total function, read only below the shape's size). -/
structure PTensor where
  shape : List Nat
  data : Nat → Int

/-- `np.reshape`: a pure row-major reinterpretation; fails when the total
size differs. -/
def npReshape (t : PTensor) (ns : List Nat) : Option PTensor :=
  if ns.prod = t.shape.prod then
    some { shape := ns, data := t.data }
  else
    Option.none

/-- `np.tile` with one repetition count per axis: axis `j` of the result
has size `reps_j * shape_j` and index `i` reads base index `i % shape_j`. -/
def npTile (t : PTensor) (reps : List Nat) : PTensor :=
  { shape := List.zipWith (fun r d => r * d) reps t.shape,
    data := fun k =>
      t.data (flatten t.shape
        (List.zipWith (fun i d => i % d)
          (unflatten (List.zipWith (fun r d => r * d) reps t.shape) k)
          t.shape)) }

/-- `np.broadcast_to` with right-aligned shapes: trailing axes follow the
base tensor, size-1 base axes are pinned to index 0. -/
def npBroadcastTo (t : PTensor) (target : List Nat) : PTensor :=
  { shape := target,
    data := fun k =>
      t.data (flatten t.shape
        (List.zipWith (fun d i => if d = 1 then 0 else i) t.shape
          ((unflatten target k).drop (target.length - t.shape.length)))) }

/-- Extensional tensor equality on valid indices. -/
def tensorEquiv (a b : PTensor) : Prop :=
  a.shape = b.shape ∧ ∀ k < a.shape.prod, a.data k = b.data k

/-- A shape left-padded with size-1 dims up to rank `m`. -/
def padTo (m : Nat) (s : List Nat) : List Nat :=
  List.replicate (m - s.length) 1 ++ s

/-- The rank of the longest input shape (`max_rank`). -/
def maxRankOf (shapes : List (List Nat)) : Nat :=
  (shapes.map List.length).foldr max 0

/-- `np.max(rows, axis=0)`: the columnwise maximum of equal-length rows. -/
def colMax : List (List Nat) → List Nat
  | [] => []
  | r :: rs => rs.foldl (fun acc s => List.zipWith max acc s) r

/-- The columnwise maximum of the left-padded shapes: the target shape
`cal_reshape_and_tile` effectively aims at.  It equals the numpy broadcast
shape except on columns that align a 0-dim with a 1-dim, where numpy
yields 0 but the maximum is 1. -/
def npBroadcastShape (shapes : List (List Nat)) : List Nat :=
  colMax (shapes.map (padTo (maxRankOf shapes)))

/-- Columnwise-maximum compatibility: after left-padding to the common
rank, every dim is 1 or equal to the columnwise maximum.  This is a
strengthening of numpy's mutual broadcastability: it excludes exactly the
shape lists that align a 0-dim against a 1-dim (numpy broadcasts those,
with result dim 0). -/
def padMaxCompat (shapes : List (List Nat)) : Prop :=
  ∀ s ∈ shapes,
    ∀ p ∈ List.zip (padTo (maxRankOf shapes) s) (npBroadcastShape shapes),
      p.1 = 1 ∨ p.1 = p.2

/-- numpy's combination of an accumulated result dim with one input dim
(the rule of `np.broadcast_shapes`): a 1 yields the other dim, equal dims
stay, any other pair is incompatible.  Note a 1 combined with a 0 gives
0. -/
def npCombineDim (r d : Nat) : Option Nat :=
  if d = 1 then some r
  else if r = 1 then some d
  else if d = r then some r
  else Option.none

/-- The numpy broadcast result of one aligned column of dims, `none` when
the column is not broadcastable; `npColDim [1, 0] = some 0`. -/
def npColDim (dims : List Nat) : Option Nat :=
  dims.foldr (fun d acc => acc.bind (fun r => npCombineDim r d)) (some 1)

/-- The aligned columns of the left-padded shapes. -/
def alignedCols (shapes : List (List Nat)) : List (List Nat) :=
  (List.range (maxRankOf shapes)).map (fun j =>
    shapes.map (fun s => (padTo (maxRankOf shapes) s).getD j 1))

/-- The numpy broadcast shape of a shape list under numpy's actual
broadcasting rules (`np.broadcast_shapes`), `none` when the shapes are not
mutually broadcastable.  Differs from `npBroadcastShape` exactly on
columns that align a 0-dim with a 1-dim, where numpy yields 0. -/
def npBroadcastShapeN (shapes : List (List Nat)) : Option (List Nat) :=
  (alignedCols shapes).mapM npColDim

/-- The four alignment checks tried in order at one offset `o` of the
inner loop of `cal_reshape_and_tile` (lines 1540-1551): the offset is taken
as soon as any succeeds. -/
def bcChecks (s maxDims : List Nat) (o : Nat) : Bool :=
  let z := List.zip s (maxDims.drop o)
  (z.all fun p => p.1 = p.2) ||
  (z.all fun p => p.1 = p.2 ∨ p.1 = 1) ||
  (z.all fun p => p.1 = 1 ∨ p.2 = 1) ||
  (z.all fun p => p.1 = p.2 ∨ p.1 = 1 ∨ p.2 = 1)

/-- The offset search of lines 1536-1551: offsets are tried left-to-right
when `match_from_left`, else right-to-left (`range(dim_diff, -1, -1)`);
`none` models `offset == -1`. -/
def findOffset (matchFromLeft : Bool) (s maxDims : List Nat) :
    Option Nat :=
  let dimDiff := maxDims.length - s.length
  let rangeList :=
    if matchFromLeft then List.range (dimDiff + 1)
    else (List.range (dimDiff + 1)).reverse
  rangeList.find? (fun o => bcChecks s maxDims o)

/-- One inner loop of lines 1533-1561 over `enumerate(input_shapes)` for a
fixed rank `r`: shapes of rank `r` (below the full rank) get an offset and
a padded shape recorded in the dictionary, and `max_dims` is raised to the
columnwise maximum; a failed offset search breaks out of this rank's
loop. -/
def procRank (mfl : Bool) (r : Nat) :
    List (Nat × List Nat) → List Nat → List (Nat × List Nat) →
    List Nat × List (Nat × List Nat)
  | [], maxDims, dict => (maxDims, dict)
  | (idx, s) :: rest, maxDims, dict =>
      if s.length = r ∧ s.length < maxDims.length then
        match findOffset mfl s maxDims with
        | Option.none => (maxDims, dict)
        | some o =>
            let dimDiff := maxDims.length - s.length
            let cur := List.replicate o 1 ++ s ++
              List.replicate (dimDiff - o) 1
            procRank mfl r rest (List.zipWith max cur maxDims)
              (dict ++ [(idx, cur)])
      else procRank mfl r rest maxDims dict

/-- The outer loop of line 1532: ranks `max_rank-1` down to `1`. -/
def procLoop (mfl : Bool) (idxShapes : List (Nat × List Nat))
    (ranks : List Nat) (maxDims0 : List Nat) :
    List Nat × List (Nat × List Nat) :=
  ranks.foldl (fun st r => procRank mfl r idxShapes st.1 st.2)
    (maxDims0, [])

/-- Python dict lookup in the new-dims dictionary. -/
def dlookup (dict : List (Nat × List Nat)) (i : Nat) :
    Option (List Nat) :=
  (dict.find? (fun p => p.1 = i)).map (·.2)

/-- The `reshape_dims` construction of lines 1563-1573: scalars become
all-1 shapes, full-rank shapes stay, lower-rank shapes read the dictionary;
a missing entry (the `WARN` + `break`, leading to the subsequent index
error) is modelled as `none`. -/
def buildReshapeDims : List (Nat × List Nat) → Nat →
    List (Nat × List Nat) → Option (List (List Nat))
  | [], _, _ => some []
  | (i, s) :: rest, maxRank, dict =>
      if s.length = 0 then
        (buildReshapeDims rest maxRank dict).map
          (fun l => List.replicate maxRank 1 :: l)
      else if s.length = maxRank then
        (buildReshapeDims rest maxRank dict).map (fun l => s :: l)
      else
        match dlookup dict i with
        | some cur =>
            (buildReshapeDims rest maxRank dict).map (fun l => cur :: l)
        | Option.none => Option.none

/-- One per-input result of `cal_reshape_and_tile`:
`{'reshape': ..., 'tile': ...}` with `None` entries when no change is
needed. -/
structure BMeta where
  reshape : Option (List Nat) := Option.none
  tile : Option (List Nat) := Option.none
  deriving DecidableEq, Repr

/-- `OpNeedBroadcast.cal_reshape_and_tile` (lines 1518-1590): `none` models
the crash after a broken inner loop; fewer than two inputs yield the empty
parameter list (line 1587-1590). -/
def cal_reshape_and_tile (input_shapes : List (List Nat))
    (matchFromLeft : Bool) : Option (List BMeta) :=
  if 2 ≤ input_shapes.length then
    let maxRank := maxRankOf input_shapes
    let maxDims0 := colMax (input_shapes.filter
      (fun s => s.length = maxRank))
    let idxShapes := input_shapes.enum
    let st := procLoop matchFromLeft idxShapes
      (((List.range maxRank).drop 1).reverse) maxDims0
    (buildReshapeDims idxShapes maxRank st.2).map (fun reshapeDims =>
      let maxDims2 := colMax (reshapeDims.filter
        (fun s => s.length = maxRank))
      let reps := reshapeDims.map
        (fun dim => List.zipWith (fun m d => m / d) maxDims2 dim)
      List.zipWith (fun sr rep =>
          { reshape := if sr.1 ≠ sr.2 then some sr.2 else Option.none,
            tile := if rep.any (fun x => x ≠ 1) then some rep
                    else Option.none })
        (input_shapes.zip reshapeDims) reps)
  else some []

/-- One reshape-then-tile application of `broad_cast` (lines 1600-1606);
`none` entries skip the step. -/
def applyMeta (t : PTensor) (m : BMeta) : Option PTensor :=
  (m.reshape.elim (some t) (npReshape t)).map
    (fun v1 => m.tile.elim v1 (npTile v1))

/-- `applyMeta` over all inputs, failing on the first reshape failure. -/
def applyMetas : List (PTensor × BMeta) → Option (List PTensor)
  | [] => some []
  | p :: rest =>
      match applyMeta p.1 p.2 with
      | Option.none => Option.none
      | some v => (applyMetas rest).map (fun l => v :: l)

/-- `OpNeedBroadcast.broad_cast` (lines 1592-1610): computes the reshape
and tile parameters from the input shapes and applies them; a parameter
count mismatch (the `WARN` of line 1607) returns the inputs unchanged, as
does an input count below two. -/
def broad_cast (inputs : List PTensor) : Option (List PTensor) :=
  if 2 ≤ inputs.length then
    (cal_reshape_and_tile (inputs.map (fun t => t.shape)) false).bind
      (fun rt =>
        if rt.length = inputs.length then
          applyMetas (inputs.zip rt)
        else some inputs)
  else some inputs

/-- The per-shape reshape/tile parameter that `cal_reshape_and_tile`
produces for mutually broadcastable shapes: left-pad to rank `m` when the
shape is not already padded, tile by `b / padded` when some repetition
exceeds 1. -/
def bcMeta (m : Nat) (b : List Nat) (s : List Nat) : BMeta :=
  { reshape := if s ≠ padTo m s
      then some (padTo m s) else Option.none,
    tile := if (List.zipWith (fun x y => x / y) b
        (padTo m s)).any (fun x => x ≠ 1)
      then some (List.zipWith (fun x y => x / y) b (padTo m s))
      else Option.none }

instance padMaxCompatDec (shapes : List (List Nat)) :
    Decidable (padMaxCompat shapes) :=
  inferInstanceAs (Decidable (∀ s ∈ shapes,
    ∀ p ∈ List.zip (padTo (maxRankOf shapes) s) (npBroadcastShape shapes),
      p.1 = 1 ∨ p.1 = p.2))

/-- A concrete broadcast input of shape `[2,1]`. -/
def bcT1 : PTensor :=
  { shape := [2, 1], data := fun k => Int.ofNat k }

/-- A concrete broadcast input of shape `[3]`. -/
def bcT2 : PTensor :=
  { shape := [3], data := fun k => Int.ofNat (10 * k) }

/-- A concrete tensor of shape `[1]`, for the C8 counterexample. -/
def bcZ1 : PTensor :=
  { shape := [1], data := fun _ => 5 }

/-- A concrete tensor of shape `[0]`, for the C8 counterexample. -/
def bcZ2 : PTensor :=
  { shape := [0], data := fun _ => 7 }

/-- The `data_format` attribute schema of `Op.attributes()`
(`ops/op.py` lines 104-110), restricted to two of its options. -/
def dataFormatSchema : AttrSchema :=
  { type := .STRING, default := some (PyVal.str "NHWC"), required := true,
    options := [PyVal.str "NHWC", PyVal.str "NCHW"] }

/-- A typical INT attribute schema (e.g. `axis` in `OpHasAxis`). -/
def axisSchema : AttrSchema :=
  { type := .INT, default := some (PyVal.int 0), required := true,
    options := [] }

/-! ## The per-pass driver (`univ_parser`, `univ_main.py` lines 133-161)

After the graph is loaded, `univ_parser` runs `preprocess`,
`convert_onnx_version` and `middle_passes`, each inside its own
`try/except` that logs a warning and falls through to the next block; line
150 then calls `infer(graph)` with **no** surrounding `try`, so an
exception raised there propagates out of `univ_parser` and the remaining
stages never run; finally `transform_to_nhwc` and `back_passes` run, again
each inside its own `try/except`.  A stage mutates the graph in place, so
it is modelled as returning the (possibly partially mutated) graph
together with an optional raised exception.
-/

/-- The outcome of one rewrite-pass stage: the graph state it leaves behind
(Python passes mutate in place, so a state is produced even on an
exception) and the exception it raised, if any. -/
def StageFun (G E : Type) : Type := G → G × Option E

/-- One `try: stage(graph) except Exception as e: WARN(...)` block of
`univ_parser`: the stage always runs, a raised exception only adds a
warning log line. -/
def runStage {G E : Type} (name : String) (stage : StageFun G E)
    (st : G × List String × List String) : G × List String × List String :=
  let g := st.1
  let logs := st.2.1
  let attempted := st.2.2
  match stage g with
  | (g', Option.none) => (g', logs, attempted ++ [name])
  | (g', some _) =>
      (g', logs ++ ["WARN: Meets exception in " ++ name], attempted ++ [name])

/-- The names of the five wrapped rewrite-pass stages of `univ_parser`, in
execution order (`univ_main.py` lines 133-161). -/
def rewriteStageNames : List String :=
  ["preprocess", "convert_onnx_version", "middle_passes",
   "transform_to_nhwc", "back_passes"]

/-- The unguarded `infer(graph)` call of `univ_main.py` line 150: when it
raises, the exception propagates — the continuation `next` (the remaining
stages) never runs and the raised exception is returned as uncaught;
otherwise the pipeline continues on the inferred graph. -/
def runInfer {G E : Type} (infer : StageFun G E)
    (st : G × List String × List String)
    (next : G × List String × List String →
      G × List String × List String) :
    (G × List String × List String) × Option E :=
  match infer st.1 with
  | (g2, some e) => ((g2, st.2.1, st.2.2), some e)
  | (g2, Option.none) => (next (g2, st.2.1, st.2.2), Option.none)

/-- The rewrite-pass section of `univ_parser` (`univ_main.py` lines
133-161): three guarded stages, the unguarded `infer` of line 150, then
two more guarded stages.  Returns the final graph state, the warning log,
the list of stages that were actually entered, and the exception that
escaped `univ_parser` when the unguarded `infer` raised. -/
def univParserRewritePasses {G E : Type}
    (preprocess convert_onnx_version middle_passes infer transform_to_nhwc
      back_passes : StageFun G E) (g : G) :
    (G × List String × List String) × Option E :=
  runInfer infer
    (runStage "middle_passes" middle_passes
      (runStage "convert_onnx_version" convert_onnx_version
        (runStage "preprocess" preprocess (g, [], []))))
    (fun st => runStage "back_passes" back_passes
      (runStage "transform_to_nhwc" transform_to_nhwc st))

/-- Concrete counterexample stage over `G = Nat`, `E = Unit`: a stage that
succeeds, advancing the state. -/
def cexStageOk : StageFun Nat Unit := fun g => (g + 1, Option.none)

/-- Concrete counterexample `middle_passes`: raises (the driver catches
and logs it) and leaves the graph state corrupted at `99`. -/
def cexMiddleBad : StageFun Nat Unit := fun _ => (99, some ())

/-- Concrete counterexample `infer`: raises exactly on the corrupted
state `99`. -/
def cexInfer : StageFun Nat Unit :=
  fun g => (g, if g = 99 then some () else Option.none)

/-- The driver run on the counterexample stages: `middle_passes` raises
and is caught, then the unguarded `infer` raises on the corrupted graph. -/
def cexDriverRun : (Nat × List String × List String) × Option Unit :=
  univParserRewritePasses cexStageOk cexStageOk cexMiddleBad cexInfer
    cexStageOk cexStageOk 0

/-- A non-const-like node with no input edges at all. -/
def cexGraphA : PGraph := { nodes := ["x"], edges := [] }

/-- A node `y` with one non-const input edge and one out-edge whose tensor
is currently marked const. -/
def cexGraphB : PGraph :=
  { nodes := ["a", "y", "b"],
    edges :=
      [{ src := "a", dst := "y", key := 0, srcOutPort := 0, dstInPort := 0,
         tensor := some { value := Option.none, shape := Option.none,
                          is_const := false } },
       { src := "y", dst := "b", key := 0, srcOutPort := 0, dstInPort := 0,
         tensor := some { value := Option.none, shape := Option.none,
                          is_const := true } }] }

/-- The spec's scenario graph: `Input(shape=[1,4]) → Add(in0)`,
`Const([1,2,3,4]) → Add(in1)` with the constant input marked const. -/
def scenarioGraph : PGraph :=
  { nodes := ["inp", "cst", "add", "out"],
    edges :=
      [{ src := "inp", dst := "add", key := 0, srcOutPort := 0,
         dstInPort := 0,
         tensor := some { value := some { shape := [1, 4] },
                          shape := some [1, 4], is_const := false } },
       { src := "cst", dst := "add", key := 0, srcOutPort := 0,
         dstInPort := 1,
         tensor := some { value := some { shape := [1, 4] },
                          shape := some [1, 4], is_const := true } },
       { src := "add", dst := "out", key := 0, srcOutPort := 0,
         dstInPort := 0,
         tensor := some { value := Option.none, shape := Option.none,
                          is_const := false } }] }

/-- The edge one sink creation appends. -/
def sinkEdge (g : PGraph) (n : String) (i : Nat) : GEdge :=
  { src := n, dst := freshName g (n ++ "_out_port_" ++ toString i),
    key := leastUnusedKey (usedKeys g n
      (freshName g (n ++ "_out_port_" ++ toString i))),
    srcOutPort := i, dstInPort := 0, tensor := Option.none }

/-- The single wired out-edge of the witness node `m`, on port 1. -/
def multiWiredEdge : GEdge :=
  { src := "m", dst := "w", key := 0, srcOutPort := 1, dstInPort := 0,
    tensor := some { value := Option.none, shape := Option.none,
                     is_const := false } }

/-- A node `m` with a single wired consumer on port 1. -/
def multiGraph : PGraph :=
  { nodes := ["m", "w"], edges := [multiWiredEdge] }

/-- The invariant of the running `max_dims`: full rank, and every dim is 1
or the broadcast dim. -/
def mdInv (m : Nat) (b md : List Nat) : Prop :=
  md.length = m ∧ ∀ q ∈ List.zip md b, q.1 = 1 ∨ q.1 = q.2

/-- Broadcast compatibility of one input shape: rank at most `m`, and after
left-padding every dim is 1 or the broadcast dim. -/
def shapeCompat (m : Nat) (b s : List Nat) : Prop :=
  s.length ≤ m ∧ ∀ q ∈ List.zip (padTo m s) b, q.1 = 1 ∨ q.1 = q.2

/-! ### Theorems for C1 and C2 -/

/-- Helper: the per-`Attribute` boolean test inside `check_required`,
as a proposition. -/
theorem check_entry_iff (a : PAttribute) :
    (!(a.required && a.value = PyVal.none) &&
      !(!a.options.isEmpty && !(a.value ∈ a.options))) = true ↔
    ((a.required = true → a.value ≠ PyVal.none) ∧
      (a.options ≠ [] → a.value ∈ a.options)) := by
  rw [Bool.and_eq_true, Bool.not_eq_true', Bool.not_eq_true',
    Bool.and_eq_false_iff, Bool.and_eq_false_iff]
  constructor
  · rintro ⟨h1, h2⟩
    constructor
    · intro hreq
      rcases h1 with h1 | h1
      · rw [hreq] at h1; cases h1
      · exact of_decide_eq_false h1
    · intro hopts
      rcases h2 with h2 | h2
      · rw [Bool.not_eq_false'] at h2
        exact absurd (List.isEmpty_iff.mp h2) hopts
      · rw [Bool.not_eq_false'] at h2
        exact of_decide_eq_true h2
  · rintro ⟨hp1, hp2⟩
    constructor
    · cases hr : a.required
      · left; rfl
      · right; exact decide_eq_false (hp1 hr)
    · by_cases hopts : a.options = []
      · left
        rw [Bool.not_eq_false']
        exact List.isEmpty_iff.mpr hopts
      · right
        rw [Bool.not_eq_false']
        exact decide_eq_true (hp2 hopts)

/-- **C1**: on a non-abstract Op, `check_required()` returns `true` iff every
`Attribute` marked required has a non-`None` value and every `Attribute`
with a non-empty options list has its current value in that list; and when
it returns `true`, every `Attribute`'s current value satisfies its options
constraint. -/
theorem C1_check_required_iff (attrs : List (String × AttrEntry)) :
    (check_required false attrs = true ↔
      ∀ k a, (k, AttrEntry.attrObj a) ∈ attrs →
        (a.required = true → a.value ≠ PyVal.none) ∧
        (a.options ≠ [] → a.value ∈ a.options)) ∧
    (check_required false attrs = true →
      ∀ k a, (k, AttrEntry.attrObj a) ∈ attrs →
        a.options ≠ [] → a.value ∈ a.options) := by
  have main : check_required false attrs = true ↔
      ∀ k a, (k, AttrEntry.attrObj a) ∈ attrs →
        (a.required = true → a.value ≠ PyVal.none) ∧
        (a.options ≠ [] → a.value ∈ a.options) := by
    unfold check_required
    simp only [Bool.false_eq_true, if_false, List.all_eq_true]
    constructor
    · intro h k a hmem
      exact (check_entry_iff a).mp (h (k, AttrEntry.attrObj a) hmem)
    · intro h kv hmem
      rcases kv with ⟨k, e⟩
      cases e with
      | raw v => rfl
      | attrObj a => exact (check_entry_iff a).mpr (h k a hmem)
  exact ⟨main, fun h k a hmem hopts => ((main.mp h) k a hmem).2 hopts⟩

/-- Helper: a successful `Attribute` construction yields exactly the merged
value coerced to the declared type. -/
theorem mkAttribute_ok_eq (sch : AttrSchema) (mv : Option PyVal)
    (a : PAttribute) (h : mkAttribute sch mv = .ok a) :
    a = expectedAttr sch mv := by
  cases mv with
  | none =>
      simp only [mkAttribute, Except.ok.injEq] at h
      simp [expectedAttr, ← h]
  | some v =>
      rcases hc : coerceValue sch.type v with _ | cv
      · simp [mkAttribute, hc] at h
      · simp only [mkAttribute, hc] at h
        by_cases hif : (!sch.options.isEmpty && !(cv ∈ sch.options)) = true
        · rw [if_pos hif] at h
          cases h
        · rw [if_neg hif] at h
          simp only [Except.ok.injEq] at h
          simp [expectedAttr, hc, ← h]

/-- **C3**: a successful `update_attributes` produces exactly the schema
defaults merged with (overridden by) the provided values, each value coerced
to its declared semantic type; and whenever a provided value (after
coercion) violates the attribute's declared options list, `update_attributes`
raises an attribute error. -/
theorem C3_update_attributes_merge (schema : List (String × AttrSchema))
    (provided : List (String × PyVal)) :
    (∀ m, update_attributes schema provided = .ok m →
      m = schema.map (fun ks =>
        (ks.1, AttrEntry.attrObj
          (expectedAttr ks.2 (mergedValue provided ks.1 ks.2))))) ∧
    ((∃ ksch ∈ schema, ∃ v cv, lookupVal provided ksch.1 = some v ∧
        coerceValue ksch.2.type v = some cv ∧
        ksch.2.options ≠ [] ∧ cv ∉ ksch.2.options) →
      ∃ e, update_attributes schema provided = .error e) := by
  constructor
  · induction schema with
    | nil =>
        intro m hm
        simp only [update_attributes, Except.ok.injEq] at hm
        simp [← hm]
    | cons head rest ih =>
        rcases head with ⟨k, sch⟩
        intro m hm
        rcases h1 : mkAttribute sch (mergedValue provided k sch) with e | a
        · rw [update_attributes, h1] at hm
          cases hm
        · rcases h2 : update_attributes rest provided with e2 | tail
          · rw [update_attributes, h1, h2] at hm
            cases hm
          · rw [update_attributes, h1, h2] at hm
            simp only [Except.ok.injEq] at hm
            rw [← hm, List.map_cons]
            rw [mkAttribute_ok_eq sch _ a h1, ih tail h2]
  · induction schema with
    | nil =>
        rintro ⟨ksch, hmem, _⟩
        cases hmem
    | cons head rest ih =>
        rcases head with ⟨k0, sch0⟩
        rintro ⟨⟨k, sch⟩, hmem, v, cv, hlk, hco, hne, hnin⟩
        rcases h1 : mkAttribute sch0 (mergedValue provided k0 sch0) with e | a
        · exact ⟨e, by rw [update_attributes, h1]⟩
        · have hmem' : ((k, sch) : String × AttrSchema) ∈ rest := by
            rcases List.mem_cons.mp hmem with heq | hmm
            · exfalso
              injection heq with hk1 hk2
              subst hk1
              subst hk2
              have hmv : mergedValue provided k sch = some v := by
                simp [mergedValue, hlk, Option.orElse]
              rw [hmv] at h1
              simp only [mkAttribute, hco] at h1
              have hcond : (!sch.options.isEmpty && !(cv ∈ sch.options))
                  = true := by
                rw [Bool.and_eq_true, Bool.not_eq_true', Bool.not_eq_true']
                constructor
                · rcases ho : sch.options.isEmpty
                  · rfl
                  · exact absurd (List.isEmpty_iff.mp ho) hne
                · exact decide_eq_false hnin
              rw [if_pos hcond] at h1
              cases h1
            · exact hmm
          obtain ⟨e2, h2⟩ := ih ⟨(k, sch), hmem', v, cv, hlk, hco, hne, hnin⟩
          exact ⟨e2, by rw [update_attributes, h1, h2]⟩

/-- Witness for C3: a concrete two-attribute schema where the provided float
`2` is coerced to int for the INT-typed `axis` attribute and the omitted
`data_format` keeps its default; and a concrete provided value `"NKWC"`
outside the options list makes `update_attributes` raise. -/
theorem C3_update_attributes_merge_witness :
    ([("axis", AttrEntry.attrObj
        { type := .INT, default := PyVal.int 0, required := true,
          options := [], value := PyVal.int 2 }),
      ("data_format", AttrEntry.attrObj
        { type := .STRING, default := PyVal.str "NHWC", required := true,
          options := [PyVal.str "NHWC", PyVal.str "NCHW"],
          value := PyVal.str "NHWC" })] =
      ([("axis", axisSchema), ("data_format", dataFormatSchema)].map
        (fun ks => (ks.1, AttrEntry.attrObj (expectedAttr ks.2
          (mergedValue [("axis", PyVal.float 2)] ks.1 ks.2)))))) ∧
    (∃ e, update_attributes [("data_format", dataFormatSchema)]
      [("data_format", PyVal.str "NKWC")] = .error e) :=
  ⟨(C3_update_attributes_merge _ [("axis", PyVal.float 2)]).1 _ (by rfl),
   (C3_update_attributes_merge _ _).2
     ⟨("data_format", dataFormatSchema), by decide, PyVal.str "NKWC",
       PyVal.str "NKWC", by decide, by decide, by decide, by decide⟩⟩

/-- Helper: in a strictly sorted list, the element that dominates all others
is the last one. -/
theorem getLast_eq_of_sorted_max :
    ∀ (l : List Nat), List.Sorted (· < ·) l → ∀ (x : Nat), x ∈ l →
      (∀ y ∈ l, y ≤ x) → l.getLast? = some x := by
  intro l
  induction l with
  | nil => intro _ x hx _; cases hx
  | cons a t ih =>
      intro hs x hx hmax
      cases t with
      | nil =>
          rcases List.mem_cons.mp hx with hx | hx
          · rw [hx]; rfl
          · cases hx
      | cons b t' =>
          have hs' : List.Sorted (· < ·) (b :: t') := hs.of_cons
          have hxt : x ∈ b :: t' := by
            rcases List.mem_cons.mp hx with hx | hx
            · exfalso
              have hab : a < b := List.rel_of_sorted_cons hs b (by simp)
              have := hmax b (by simp)
              omega
            · exact hx
          have hmax' : ∀ y ∈ b :: t', y ≤ x := fun y hy =>
            hmax y (List.mem_cons_of_mem a hy)
          rw [List.getLast?_cons_cons]
          exact ih hs' x hxt hmax'

/-- **C2**: with a kind's declared schema versions (strictly ascending, as in
every `attributes()` dictionary of the code base), version resolution
returns the requested version when it is declared, otherwise the highest
declared version `≤` the request, and fails with an unsupported-version
error when no declared version qualifies. -/
theorem C2_version_resolution (verList : List Nat) (v : Nat)
    (hsorted : List.Sorted (· < ·) verList) :
    (v ∈ verList → resolveVersion verList v = .ok v) ∧
    (∀ m, m ∈ verList → m ≤ v → (∀ k ∈ verList, k ≤ v → k ≤ m) →
      resolveVersion verList v = .ok m) ∧
    ((∀ k ∈ verList, v < k) →
      resolveVersion verList v = .error "unsupported opset version") := by
  refine ⟨?_, ?_, ?_⟩
  · intro hv
    simp [resolveVersion, cal_ver, hv]
  · intro m hm hlev hmax
    by_cases hv : v ∈ verList
    · have hmv : m = v := Nat.le_antisymm hlev (hmax v hv (Nat.le_refl v))
      simp [resolveVersion, cal_ver, hv, hmv]
    · have hfs : List.Sorted (· < ·) (verList.filter (· ≤ v)) :=
        hsorted.filter _
      have hmf : m ∈ verList.filter (· ≤ v) := by
        rw [List.mem_filter]
        exact ⟨hm, by simpa using hlev⟩
      have hmaxf : ∀ y ∈ verList.filter (· ≤ v), y ≤ m := by
        intro y hy
        rw [List.mem_filter] at hy
        exact hmax y hy.1 (by simpa using hy.2)
      have : (verList.filter (· ≤ v)).getLast? = some m :=
        getLast_eq_of_sorted_max _ hfs m hmf hmaxf
      simp [resolveVersion, cal_ver, hv, this]
  · intro hgt
    have hv : v ∉ verList := fun hv => absurd (hgt v hv) (by omega)
    have hfe : verList.filter (· ≤ v) = [] := by
      rw [List.filter_eq_nil_iff]
      intro k hk
      simpa using Nat.not_le_of_lt (hgt k hk)
    simp [resolveVersion, cal_ver, hv, hfe]

/-- Witness for C2: for declared versions `[1, 6, 13]`, request 13 resolves
to 13 itself, request 9 resolves to 6, and for `[6, 13]` request 3 fails. -/
theorem C2_version_resolution_witness :
    resolveVersion [1, 6, 13] 13 = .ok 13 ∧
    resolveVersion [1, 6, 13] 9 = .ok 6 ∧
    resolveVersion [6, 13] 3 = .error "unsupported opset version" :=
  ⟨(C2_version_resolution [1, 6, 13] 13 (by decide)).1 (by decide),
   (C2_version_resolution [1, 6, 13] 9 (by decide)).2.1 6 (by decide)
     (by decide) (by decide),
   (C2_version_resolution [6, 13] 3 (by decide)).2.2 (by decide)⟩

/-! ### Theorem for C7 -/

/-- Helper: a stage block always records its stage as attempted. -/
theorem runStage_attempted {G E : Type} (name : String) (stage : StageFun G E)
    (st : G × List String × List String) :
    (runStage name stage st).2.2 = st.2.2 ++ [name] := by
  rcases h : stage st.1 with ⟨g', e⟩
  cases e <;> simp [runStage, h]

/-- Helper: a stage block never removes earlier log lines. -/
theorem runStage_log_mem {G E : Type} (name : String) (stage : StageFun G E)
    (st : G × List String × List String) (x : String)
    (hx : x ∈ st.2.1) : x ∈ (runStage name stage st).2.1 := by
  rcases h : stage st.1 with ⟨g', e⟩
  cases e <;> simp [runStage, h, hx]

/-- Helper: the attempted list after the three guarded stages that precede
the unguarded `infer`. -/
theorem threeStages_attempted {G E : Type} (p c m : StageFun G E) (g : G) :
    (runStage "middle_passes" m (runStage "convert_onnx_version" c
      (runStage "preprocess" p (g, [], [])))).2.2
      = ["preprocess", "convert_onnx_version", "middle_passes"] := by
  rw [runStage_attempted, runStage_attempted, runStage_attempted]
  rfl

/-- Helper: the two guarded stages after `infer` extend the attempted
list. -/
theorem twoStages_attempted {G E : Type} (t b : StageFun G E)
    (st : G × List String × List String) :
    (runStage "back_passes" b (runStage "transform_to_nhwc" t st)).2.2
      = st.2.2 ++ ["transform_to_nhwc", "back_passes"] := by
  rw [runStage_attempted, runStage_attempted, List.append_assoc]
  rfl

/-- Helper: a non-raising `infer` lets the remaining stages run. -/
theorem runInfer_none {G E : Type} (i : StageFun G E)
    (st : G × List String × List String)
    (next : G × List String × List String →
      G × List String × List String) (g2 : G)
    (h : i st.1 = (g2, Option.none)) :
    runInfer i st next = (next (g2, st.2.1, st.2.2), Option.none) := by
  rw [runInfer, h]

/-- Helper: a raising `infer` aborts with the exception uncaught. -/
theorem runInfer_some {G E : Type} (i : StageFun G E)
    (st : G × List String × List String)
    (next : G × List String × List String →
      G × List String × List String) (g2 : G) (e : E)
    (h : i st.1 = (g2, some e)) :
    runInfer i st next = ((g2, st.2.1, st.2.2), some e) := by
  rw [runInfer, h]

/-- **C7, counterexample**: with a `middle_passes` that raises (and is
caught and logged — its WARN line is the whole log) but corrupts the
graph, the unguarded `infer` of `univ_main.py` line 150 raises and escapes
`univ_parser`: `transform_to_nhwc` and `back_passes` are never entered, so
a single failing pass does abort the rest of the pipeline. -/
theorem C7_counterexample :
    (cexMiddleBad 1).2.isSome ∧
    cexDriverRun.1.2.1 = ["WARN: Meets exception in middle_passes"] ∧
    cexDriverRun.1.2.2
      = ["preprocess", "convert_onnx_version", "middle_passes"] ∧
    cexDriverRun.2 = some () ∧
    "transform_to_nhwc" ∉ cexDriverRun.1.2.2 ∧
    "back_passes" ∉ cexDriverRun.1.2.2 := by
  refine ⟨?_, ?_, ?_, ?_, ?_, ?_⟩ <;> decide

/-- **C7, amended**: each of the five wrapped stages has its exception
caught and logged (a raising `preprocess` leaves its WARN line in the
final log), and when the unguarded `infer` of line 150 does not raise,
all five stages are entered in order with no uncaught exception; but when
`infer` raises — e.g. on a graph corrupted by a caught `middle_passes`
failure — its exception escapes the driver and only the first three
stages were entered. -/
theorem C7_driver_amended {G E : Type}
    (p c m i t b : StageFun G E) (g : G) :
    (∀ g2, i (runStage "middle_passes" m (runStage "convert_onnx_version" c
          (runStage "preprocess" p (g, [], [])))).1 = (g2, Option.none) →
      (univParserRewritePasses p c m i t b g).1.2.2 = rewriteStageNames ∧
      (univParserRewritePasses p c m i t b g).2 = Option.none) ∧
    (∀ g2 e, i (runStage "middle_passes" m (runStage "convert_onnx_version" c
          (runStage "preprocess" p (g, [], [])))).1 = (g2, some e) →
      (univParserRewritePasses p c m i t b g).1.2.2
        = ["preprocess", "convert_onnx_version", "middle_passes"] ∧
      (univParserRewritePasses p c m i t b g).2 = some e) ∧
    ((p g).2.isSome →
      "WARN: Meets exception in preprocess" ∈
        (univParserRewritePasses p c m i t b g).1.2.1) := by
  refine ⟨?_, ?_, ?_⟩
  · intro g2 hinf
    unfold univParserRewritePasses
    rw [runInfer_none i _ _ g2 hinf]
    constructor
    · show (runStage "back_passes" b (runStage "transform_to_nhwc" t
          _)).2.2 = rewriteStageNames
      rw [twoStages_attempted]
      show (runStage "middle_passes" m (runStage "convert_onnx_version" c
          (runStage "preprocess" p (g, [], [])))).2.2 ++ _ = _
      rw [threeStages_attempted]
      rfl
    · rfl
  · intro g2 e hinf
    unfold univParserRewritePasses
    rw [runInfer_some i _ _ g2 e hinf]
    constructor
    · show (runStage "middle_passes" m (runStage "convert_onnx_version" c
          (runStage "preprocess" p (g, [], [])))).2.2 = _
      rw [threeStages_attempted]
    · rfl
  · intro hps
    have hbase :
        "WARN: Meets exception in preprocess" ∈
          (runStage "preprocess" p (g, [], [])).2.1 := by
      rcases hp : p g with ⟨g1, e1⟩
      cases e1 with
      | none => rw [hp] at hps; cases hps
      | some e => simp [runStage, hp]
    have h3 : "WARN: Meets exception in preprocess" ∈
        (runStage "middle_passes" m (runStage "convert_onnx_version" c
          (runStage "preprocess" p (g, [], [])))).2.1 :=
      runStage_log_mem _ m _ _ (runStage_log_mem _ c _ _ hbase)
    unfold univParserRewritePasses
    rcases hi : i (runStage "middle_passes" m (runStage "convert_onnx_version" c
        (runStage "preprocess" p (g, [], [])))).1 with ⟨g2, e2⟩
    cases e2 with
    | none =>
        rw [runInfer_none i _ _ g2 hi]
        exact runStage_log_mem _ b _ _ (runStage_log_mem _ t _ _ h3)
    | some e =>
        rw [runInfer_some i _ _ g2 e hi]
        exact h3

/-- Witness for the amended C7 with concrete stages over `G = Nat`,
`E = Unit`: `preprocess` raises (caught, logged) and `infer` succeeds, so
all five stages are entered and nothing escapes. -/
theorem C7_driver_amended_witness :
    ((univParserRewritePasses (G := Nat) (E := Unit)
        (fun g => (g, some ())) (fun g => (g + 1, Option.none))
        (fun g => (g + 2, Option.none)) (fun g => (g + 3, Option.none))
        (fun g => (g + 4, Option.none)) (fun g => (g + 5, Option.none))
        0).1.2.2 = rewriteStageNames ∧
     (univParserRewritePasses (G := Nat) (E := Unit)
        (fun g => (g, some ())) (fun g => (g + 1, Option.none))
        (fun g => (g + 2, Option.none)) (fun g => (g + 3, Option.none))
        (fun g => (g + 4, Option.none)) (fun g => (g + 5, Option.none))
        0).2 = Option.none) ∧
    "WARN: Meets exception in preprocess" ∈
      (univParserRewritePasses (G := Nat) (E := Unit)
        (fun g => (g, some ())) (fun g => (g + 1, Option.none))
        (fun g => (g + 2, Option.none)) (fun g => (g + 3, Option.none))
        (fun g => (g + 4, Option.none)) (fun g => (g + 5, Option.none))
        0).1.2.1 :=
  ⟨(C7_driver_amended _ _ _ _ _ _ _).1 6 (by decide),
   (C7_driver_amended _ _ _ _ _ _ _).2.2 (by decide)⟩

/-! ### Theorems for C6 -/

/-- Helper: the head (with default) of a non-empty list is a member. -/
theorem headD_mem {α : Type} (l : List α) (d : α) (h : l ≠ []) :
    l.headD d ∈ l := by
  cases l with
  | nil => exact absurd rfl h
  | cons a t => simp [List.headD]

/-- Helper: the auto-allocated key is unused (pigeonhole on
`0 .. used.length`). -/
theorem leastUnusedKey_not_mem (used : List Nat) :
    leastUnusedKey used ∉ used := by
  have hne : (List.range (used.length + 1)).filter (fun k => k ∉ used)
      ≠ [] := by
    intro hnil
    have hsub : List.range (used.length + 1) ⊆ used := by
      intro k hk
      by_contra hkn
      have hmem : k ∈ (List.range (used.length + 1)).filter
          (fun k => k ∉ used) :=
        List.mem_filter.mpr ⟨hk, by simpa using hkn⟩
      rw [hnil] at hmem
      cases hmem
    have h1 : (List.range (used.length + 1)).toFinset.card ≤
        used.toFinset.card :=
      Finset.card_le_card (fun x hx =>
        List.mem_toFinset.mpr (hsub (List.mem_toFinset.mp hx)))
    rw [List.toFinset_card_of_nodup (List.nodup_range (used.length + 1)),
      List.length_range] at h1
    have h2 : used.toFinset.card ≤ used.length := used.toFinset_card_le
    omega
  have hmem : leastUnusedKey used ∈
      (List.range (used.length + 1)).filter (fun k => k ∉ used) :=
    headD_mem _ 0 hne
  have := (List.mem_filter.mp hmem).2
  simpa using this

/-- Helper: `add_edge` preserves the pairwise-distinct-keys invariant. -/
theorem add_edge_preserves_distinctKeys (g : PGraph) (h : distinctKeys g)
    (src dst : String) (sp dp : Nat) (t : Option NTensor) :
    distinctKeys (add_edge g src dst sp dp t) := by
  unfold distinctKeys add_edge
  rw [List.pairwise_append]
  refine ⟨h, List.pairwise_singleton _ _, ?_⟩
  intro a ha b hb
  simp only [List.mem_singleton] at hb
  subst hb
  intro hsrc hdst hkey
  have hused : a.key ∈ usedKeys g src dst := by
    unfold usedKeys
    exact List.mem_map.mpr ⟨a, List.mem_filter.mpr
      ⟨ha, by simp [hsrc, hdst]⟩, rfl⟩
  rw [hkey] at hused
  exact leastUnusedKey_not_mem _ hused

/-- **C6**: key-less `add_edge` calls give edges between the same
`(src, dst)` pair pairwise-distinct keys (starting from any graph already
satisfying the invariant), and `sorted_out_edges` returns the out-edges of
a node in ascending `(port, key)` order. -/
theorem C6_auto_keys_and_sorted_out_edges :
    (∀ (g0 : PGraph), distinctKeys g0 →
      ∀ reqs, distinctKeys (applyAddEdges g0 reqs)) ∧
    (∀ (g : PGraph) (n : String),
      (sorted_out_edges g n).Pairwise (fun a b =>
        a.srcOutPort < b.srcOutPort ∨
          (a.srcOutPort = b.srcOutPort ∧ a.key ≤ b.key)) ∧
      (sorted_out_edges g n).Perm
        (g.edges.filter (fun e => e.src = n))) := by
  constructor
  · intro g0 h reqs
    induction reqs generalizing g0 with
    | nil => exact h
    | cons r rest ih =>
        exact ih _ (add_edge_preserves_distinctKeys g0 h r.1 r.2.1
          r.2.2.1 r.2.2.2 Option.none)
  · intro g n
    constructor
    · have := List.sorted_insertionSort outEdgeLE
        (g.edges.filter (fun e => e.src = n))
      exact this.imp (fun hab => hab)
    · exact List.perm_insertionSort _ _

/-- Witness for C6: three key-less `add_edge` calls (two of them parallel
edges between the same pair) starting from the empty graph produce
pairwise-distinct keys. -/
theorem C6_auto_keys_and_sorted_out_edges_witness :
    distinctKeys (applyAddEdges { nodes := [], edges := [] }
      [("a", "b", 0, 0), ("a", "b", 0, 1), ("a", "c", 1, 0)]) :=
  (C6_auto_keys_and_sorted_out_edges).1 _ (by decide) _

/-! ### Theorems for C4 -/

/-- **C4, counterexample**: the claim's "fully-constant iff all input edges
const, or input-free and const-like" fails on the code: a non-const-like
node with zero input edges satisfies the claim's condition vacuously but
`is_all_inputs_const` answers `false`; and `set_out_tensor` with a `None`
value leaves a stale `is_const = true` on an out-edge even though the
computed constness is `false`. -/
theorem C4_counterexample :
    (is_all_inputs_const false cexGraphA "x" = some false ∧
      claimedFullyConst false cexGraphA "x" = true) ∧
    (is_all_inputs_const false cexGraphB "y" = some false ∧
      ∃ e ∈ (set_out_tensor_one false cexGraphB "y" Option.none).edges,
        e.src = "y" ∧ ∃ t, e.tensor = some t ∧ t.is_const = true) := by
  decide

/-- **C4, amended**: `is_all_inputs_const()` is true iff the node is
const-like, or it has at least one input edge and every input edge's tensor
is marked `is_const` (a non-const-like node with no inputs is *not*
fully-constant); when inference sets the output tensor with a non-`None`
value, every outgoing edge that already carries a tensor has its `is_const`
set to the computed value, and an edge without a tensor receives a fresh
tensor with `is_const = false`; in particular when the computed constness
is `false` (e.g. one non-const and one const input) every outgoing edge's
tensor ends up `is_const = false`. -/
theorem C4_const_propagation_amended (constLike : Bool) (g : PGraph)
    (n : String) :
    (∀ ts, (sorted_in_edges g n).mapM (fun (e : GEdge) => e.tensor)
        = some ts →
      (is_all_inputs_const constLike g n = some true ↔
        (constLike = true ∨ (ts ≠ [] ∧ ∀ t ∈ ts, t.is_const = true)))) ∧
    (∀ (d : TData) (c : Bool), is_all_inputs_const constLike g n = some c →
      ∀ e ∈ g.edges, e.src = n →
        (∀ t0, e.tensor = some t0 →
          ({ e with tensor := some (constTensor d c) } : GEdge)
            ∈ (set_out_tensor_one constLike g n (some d)).edges) ∧
        (e.tensor = Option.none →
          ({ e with tensor := some (mkTensorFromValue (some d)) } : GEdge)
            ∈ (set_out_tensor_one constLike g n (some d)).edges)) ∧
    (∀ (d : TData), is_all_inputs_const constLike g n = some false →
      ∀ e ∈ (set_out_tensor_one constLike g n (some d)).edges, e.src = n →
        ∃ t, e.tensor = some t ∧ t.is_const = false) := by
  refine ⟨?_, ?_, ?_⟩
  · intro ts hts
    cases constLike with
    | true => simp [is_all_inputs_const]
    | false =>
        rw [is_all_inputs_const]
        rw [if_neg (by simp), hts]
        simp only [Option.map_some', Option.some.injEq, Bool.false_eq_true,
          false_or]
        constructor
        · intro hb
          rw [Bool.and_eq_true, Bool.not_eq_true'] at hb
          refine ⟨fun hnil => ?_, List.all_eq_true.mp hb.2⟩
          rw [hnil] at hb
          simp at hb
        · rintro ⟨h1, h2⟩
          rw [Bool.and_eq_true, Bool.not_eq_true']
          refine ⟨?_, List.all_eq_true.mpr h2⟩
          cases hts' : ts.isEmpty
          · rfl
          · exact absurd (List.isEmpty_iff.mp hts') h1
  · intro d c hc e he hsrc
    constructor
    · intro t0 ht0
      rw [set_out_tensor_one, hc]
      simp only
      refine List.mem_map.mpr ⟨e, he, ?_⟩
      rw [if_pos (by exact hsrc)]
      simp [updateEdgeTensorOne, ht0, constTensor]
    · intro ht0
      rw [set_out_tensor_one, hc]
      simp only
      refine List.mem_map.mpr ⟨e, he, ?_⟩
      rw [if_pos (by exact hsrc)]
      simp [updateEdgeTensorOne, ht0]
  · intro d hc e' he' hsrc
    rw [set_out_tensor_one, hc] at he'
    simp only at he'
    obtain ⟨e0, he0, heq⟩ := List.mem_map.mp he'
    by_cases h0 : e0.src = n
    · rw [if_pos h0] at heq
      cases ht : e0.tensor with
      | none =>
          rw [updateEdgeTensorOne, ht] at heq
          exact ⟨mkTensorFromValue (some d), by rw [← heq],
            by rw [mkTensorFromValue]⟩
      | some t0 =>
          rw [updateEdgeTensorOne, ht] at heq
          exact ⟨constTensor d false, by rw [← heq]; rfl, rfl⟩
    · rw [if_neg h0] at heq
      rw [← heq] at hsrc
      exact absurd hsrc h0

/-- Witness for the amended C4: on the scenario graph (one const and one
non-const input to `add`) setting the output tensor marks every out-edge of
`add` non-const. -/
theorem C4_const_propagation_amended_witness :
    ∀ e ∈ (set_out_tensor_one false scenarioGraph "add"
        (some { shape := [1, 4] })).edges, e.src = "add" →
      ∃ t, e.tensor = some t ∧ t.is_const = false :=
  (C4_const_propagation_amended false scenarioGraph "add").2.2
    { shape := [1, 4] } (by decide)

/-! ### Theorems for C5 -/

/-- Helper: membership in `sorted_out_edges`. -/
theorem mem_sorted_out_edges (g : PGraph) (n : String) (e : GEdge) :
    e ∈ sorted_out_edges g n ↔ e ∈ g.edges ∧ e.src = n := by
  unfold sorted_out_edges
  rw [(List.perm_insertionSort outEdgeLE _).mem_iff, List.mem_filter]
  simp

/-- Helper: a port is in `get_out_ports` iff some out-edge uses it. -/
theorem mem_get_out_ports (g : PGraph) (n : String) (i : Nat) :
    i ∈ get_out_ports g n ↔
      ∃ e ∈ g.edges, e.src = n ∧ e.srcOutPort = i := by
  unfold get_out_ports
  rw [(List.perm_insertionSort _ _).mem_iff, List.mem_dedup, List.mem_map]
  constructor
  · rintro ⟨e, he, hport⟩
    rw [mem_sorted_out_edges] at he
    exact ⟨e, he.1, he.2, hport⟩
  · rintro ⟨e, he, hsrc, hport⟩
    exact ⟨e, (mem_sorted_out_edges g n e).mpr ⟨he, hsrc⟩, hport⟩

/-- Helper: every node name is at most `maxNameLen` long. -/
theorem length_le_maxNameLen (g : PGraph) :
    ∀ s ∈ g.nodes, s.length ≤ maxNameLen g := by
  unfold maxNameLen
  induction g.nodes with
  | nil => intro s hs; cases hs
  | cons a t ih =>
      intro s hs
      rcases List.mem_cons.mp hs with rfl | hs
      · exact Nat.le_max_left _ _
      · exact Nat.le_trans (ih s hs) (Nat.le_max_right _ _)

/-- Helper: the padded fresh name is not an existing node name. -/
theorem freshName_not_mem (g : PGraph) (base : String) :
    freshName g base ∉ g.nodes := by
  intro hmem
  have h1 : (freshName g base).length ≤ maxNameLen g :=
    length_le_maxNameLen g _ hmem
  have h2 : (freshName g base).length
      = base.length + (maxNameLen g + 1) := by
    unfold freshName
    rw [String.length_append]
    have : (String.mk (List.replicate (maxNameLen g + 1) '_')).length
        = maxNameLen g + 1 := by
      show (List.replicate (maxNameLen g + 1) '_').length = maxNameLen g + 1
      simp
    omega
  omega

/-- Helper: the shape of the graph after one sink creation. -/
theorem addSinkEdge_edges (g : PGraph) (n : String) (i : Nat) :
    (addSinkEdge g n i).edges = g.edges ++ [sinkEdge g n i] := rfl

/-- Helper: `add_edge` never removes nodes. -/
theorem add_edge_nodes_subset (g : PGraph) (src dst : String)
    (sp dp : Nat) (t : Option NTensor) :
    g.nodes ⊆ (add_edge g src dst sp dp t).nodes := by
  unfold add_edge
  intro s hs
  dsimp only
  by_cases h1 : src ∈ g.nodes
  · rw [if_pos h1]
    by_cases h2 : dst ∈ g.nodes
    · rw [if_pos h2]; exact hs
    · rw [if_neg h2]; exact List.mem_append_left _ hs
  · rw [if_neg h1]
    by_cases h2 : dst ∈ g.nodes ++ [src]
    · rw [if_pos h2]; exact List.mem_append_left _ hs
    · rw [if_neg h2]
      exact List.mem_append_left _ (List.mem_append_left _ hs)

/-- Helper: `addSinkEdge` never removes nodes. -/
theorem addSinkEdge_nodes_subset (g : PGraph) (n : String) (i : Nat) :
    g.nodes ⊆ (addSinkEdge g n i).nodes :=
  add_edge_nodes_subset g n _ i 0 Option.none

/-- Helper: `sinkStep` keeps existing edges and nodes. -/
theorem sinkStep_mono (n : String) (P : List Nat) (acc : PGraph) (i : Nat) :
    (∀ e ∈ acc.edges, e ∈ (sinkStep n P acc i).edges) ∧
    acc.nodes ⊆ (sinkStep n P acc i).nodes := by
  unfold sinkStep
  by_cases hi : i ∈ P
  · simp [hi]
  · rw [if_neg hi]
    constructor
    · intro e he
      rw [addSinkEdge_edges]
      exact List.mem_append_left _ he
    · exact addSinkEdge_nodes_subset acc n i

/-- Helper: the sink-creation fold keeps existing edges and nodes. -/
theorem sinkFold_mono (n : String) (P : List Nat) :
    ∀ (idxs : List Nat) (acc : PGraph),
      (∀ e ∈ acc.edges, e ∈ (idxs.foldl (sinkStep n P) acc).edges) ∧
      acc.nodes ⊆ (idxs.foldl (sinkStep n P) acc).nodes := by
  intro idxs
  induction idxs with
  | nil => intro acc; exact ⟨fun e he => he, fun s hs => hs⟩
  | cons j rest ih =>
      intro acc
      rw [List.foldl_cons]
      constructor
      · intro e he
        exact (ih (sinkStep n P acc j)).1 e ((sinkStep_mono n P acc j).1 e he)
      · exact Set.Subset.trans (fun s hs => (sinkStep_mono n P acc j).2 hs)
          (fun s hs => (ih (sinkStep n P acc j)).2 hs)

/-- Helper: the sink-creation fold adds, for every unwired index it
processes, an edge from port `i` to a node that did not exist before. -/
theorem sinkFold_creates (n : String) (P : List Nat) :
    ∀ (idxs : List Nat) (acc : PGraph) (i : Nat), i ∈ idxs → i ∉ P →
      ∃ e ∈ (idxs.foldl (sinkStep n P) acc).edges,
        e.src = n ∧ e.srcOutPort = i ∧ e.dstInPort = 0 ∧
        e.dst ∉ acc.nodes := by
  intro idxs
  induction idxs with
  | nil => intro acc i hi; cases hi
  | cons j rest ih =>
      intro acc i hi hP
      rw [List.foldl_cons]
      rcases List.mem_cons.mp hi with rfl | hi
      · have hstep : sinkStep n P acc i = addSinkEdge acc n i := if_neg hP
        have hnew : sinkEdge acc n i ∈ (sinkStep n P acc i).edges := by
          rw [hstep, addSinkEdge_edges]
          exact List.mem_append_right _ (by simp)
        refine ⟨_, (sinkFold_mono n P rest (sinkStep n P acc i)).1 _ hnew,
          rfl, rfl, rfl, ?_⟩
        exact freshName_not_mem acc _
      · obtain ⟨e, he, h1, h2, h3, h4⟩ :=
          ih (sinkStep n P acc j) i hi hP
        refine ⟨e, he, h1, h2, h3, fun hmem => ?_⟩
        exact h4 ((sinkStep_mono n P acc j).2 hmem)

/-- Helper: tensor updates do not change an edge's endpoints or ports. -/
theorem updateEdgeTensorMulti_fields (c : Bool) (td : Option TData)
    (e : GEdge) :
    (updateEdgeTensorMulti c td e).src = e.src ∧
    (updateEdgeTensorMulti c td e).dst = e.dst ∧
    (updateEdgeTensorMulti c td e).srcOutPort = e.srcOutPort ∧
    (updateEdgeTensorMulti c td e).dstInPort = e.dstInPort := by
  unfold updateEdgeTensorMulti
  cases e.tensor <;> exact ⟨rfl, rfl, rfl, rfl⟩

/-- **C5**: when inference produces `n` tensors but fewer than `n` distinct
output ports are wired, `set_out_tensor` creates, for every unwired port
index below `n`, an edge from that port to a fresh node that did not exist
before; afterwards every port index below `n` has an out-edge, and every
out-edge on a port below `n` carries that port's produced tensor. -/
theorem C5_multi_out_fanout (constLike : Bool) (g : PGraph) (n : String)
    (tds : List (Option TData)) (c : Bool)
    (hconst : is_all_inputs_const constLike g n = some c)
    (hfewer : (get_out_ports g n).length < tds.length) :
    (∀ i, i < tds.length → i ∉ get_out_ports g n →
      ∃ e ∈ (set_out_tensor_multi constLike g n tds).edges,
        e.src = n ∧ e.srcOutPort = i ∧ e.dstInPort = 0 ∧
        e.dst ∉ g.nodes) ∧
    (∀ i, i < tds.length →
      ∃ e ∈ (set_out_tensor_multi constLike g n tds).edges,
        e.src = n ∧ e.srcOutPort = i) ∧
    (∀ e ∈ (set_out_tensor_multi constLike g n tds).edges,
      e.src = n → e.srcOutPort < tds.length →
      ∃ t, e.tensor = some t ∧
        t.value = tds.getD e.srcOutPort Option.none) := by
  have hg' : set_out_tensor_multi constLike g n tds =
      { (List.range tds.length).foldl (sinkStep n (get_out_ports g n)) g
        with edges :=
          ((List.range tds.length).foldl (sinkStep n (get_out_ports g n))
            g).edges.map (fun e =>
            if e.src = n ∧ e.srcOutPort < tds.length ∧
                e.srcOutPort ∈ get_out_ports
                  ((List.range tds.length).foldl
                    (sinkStep n (get_out_ports g n)) g) n then
              updateEdgeTensorMulti c (tds.getD e.srcOutPort Option.none) e
            else e) } := by
    rw [set_out_tensor_multi, hconst]
    simp only [if_pos hfewer]
  refine ⟨?_, ?_, ?_⟩
  · intro i hilt hiP
    obtain ⟨e, he, h1, h2, h3, h4⟩ :=
      sinkFold_creates n (get_out_ports g n) (List.range tds.length) g i
        (List.mem_range.mpr hilt) hiP
    rw [hg']
    refine ⟨_, List.mem_map.mpr ⟨e, he, rfl⟩, ?_⟩
    by_cases hcond : e.src = n ∧ e.srcOutPort < tds.length ∧
        e.srcOutPort ∈ get_out_ports
          ((List.range tds.length).foldl
            (sinkStep n (get_out_ports g n)) g) n
    · rw [if_pos hcond]
      obtain ⟨f1, f2, f3, f4⟩ := updateEdgeTensorMulti_fields c
        (tds.getD e.srcOutPort Option.none) e
      rw [f1, f2, f3, f4]
      exact ⟨h1, h2, h3, h4⟩
    · rw [if_neg hcond]
      exact ⟨h1, h2, h3, h4⟩
  · intro i hilt
    have hbase : ∃ e ∈ ((List.range tds.length).foldl
        (sinkStep n (get_out_ports g n)) g).edges,
        e.src = n ∧ e.srcOutPort = i := by
      by_cases hiP : i ∈ get_out_ports g n
      · obtain ⟨e, he, hsrc, hport⟩ := (mem_get_out_ports g n i).mp hiP
        exact ⟨e, (sinkFold_mono n (get_out_ports g n)
          (List.range tds.length) g).1 e he, hsrc, hport⟩
      · obtain ⟨e, he, h1, h2, _, _⟩ :=
          sinkFold_creates n (get_out_ports g n) (List.range tds.length) g
            i (List.mem_range.mpr hilt) hiP
        exact ⟨e, he, h1, h2⟩
    obtain ⟨e, he, hsrc, hport⟩ := hbase
    rw [hg']
    refine ⟨_, List.mem_map.mpr ⟨e, he, rfl⟩, ?_⟩
    by_cases hcond : e.src = n ∧ e.srcOutPort < tds.length ∧
        e.srcOutPort ∈ get_out_ports
          ((List.range tds.length).foldl
            (sinkStep n (get_out_ports g n)) g) n
    · rw [if_pos hcond]
      obtain ⟨f1, _, f3, _⟩ := updateEdgeTensorMulti_fields c
        (tds.getD e.srcOutPort Option.none) e
      rw [f1, f3]
      exact ⟨hsrc, hport⟩
    · rw [if_neg hcond]
      exact ⟨hsrc, hport⟩
  · intro e' he' hsrc hlt
    rw [hg'] at he'
    obtain ⟨e0, he0, heq⟩ := List.mem_map.mp he'
    have hcond : e0.src = n ∧ e0.srcOutPort < tds.length ∧
        e0.srcOutPort ∈ get_out_ports
          ((List.range tds.length).foldl
            (sinkStep n (get_out_ports g n)) g) n := by
      by_cases hcond : e0.src = n ∧ e0.srcOutPort < tds.length ∧
          e0.srcOutPort ∈ get_out_ports
            ((List.range tds.length).foldl
              (sinkStep n (get_out_ports g n)) g) n
      · exact hcond
      · rw [if_neg hcond] at heq
        subst heq
        refine absurd ⟨hsrc, hlt, ?_⟩ hcond
        exact (mem_get_out_ports _ n _).mpr ⟨e0, he0, hsrc, rfl⟩
    rw [if_pos hcond] at heq
    subst heq
    obtain ⟨_, _, f3, _⟩ := updateEdgeTensorMulti_fields c
      (tds.getD e0.srcOutPort Option.none) e0
    rw [f3]
    unfold updateEdgeTensorMulti
    cases ht0 : e0.tensor with
    | none => exact ⟨_, rfl, rfl⟩
    | some t0 => exact ⟨_, rfl, rfl⟩

/-- Witness for C5: a const-like node `m` with one wired port and three
produced tensors fans the two unwired ports out to fresh sinks and writes
every tensor. -/
theorem C5_multi_out_fanout_witness :
    (∀ i, i < 3 → i ∉ get_out_ports multiGraph "m" →
      ∃ e ∈ (set_out_tensor_multi true multiGraph "m"
          [some { shape := [2] }, some { shape := [3] },
            some { shape := [4] }]).edges,
        e.src = "m" ∧ e.srcOutPort = i ∧ e.dstInPort = 0 ∧
        e.dst ∉ multiGraph.nodes) ∧
    (∀ i, i < 3 →
      ∃ e ∈ (set_out_tensor_multi true multiGraph "m"
          [some { shape := [2] }, some { shape := [3] },
            some { shape := [4] }]).edges,
        e.src = "m" ∧ e.srcOutPort = i) ∧
    (∀ e ∈ (set_out_tensor_multi true multiGraph "m"
        [some { shape := [2] }, some { shape := [3] },
          some { shape := [4] }]).edges,
      e.src = "m" → e.srcOutPort < 3 →
      ∃ t, e.tensor = some t ∧
        t.value = [some ({ shape := [2] } : TData), some { shape := [3] },
          some { shape := [4] }].getD e.srcOutPort Option.none) :=
  C5_multi_out_fanout true multiGraph "m"
    [some { shape := [2] }, some { shape := [3] }, some { shape := [4] }]
    true (by rfl) (by decide)

/-! ### Theorems for C8 -/

/-- Helper: unflattening has the shape's rank. -/
theorem length_unflatten (shape : List Nat) (k : Nat) :
    (unflatten shape k).length = shape.length := by
  induction shape generalizing k with
  | nil => rfl
  | cons d ds ih => simp [unflatten, ih]

/-- Helper: below the shape's size, every unflattened coordinate is below
its dim. -/
theorem unflatten_bounds (shape : List Nat) (k : Nat)
    (hk : k < shape.prod) :
    ∀ p ∈ List.zip (unflatten shape k) shape, p.1 < p.2 := by
  induction shape generalizing k with
  | nil => intro p hp; cases hp
  | cons d ds ih =>
      intro p hp
      rw [List.prod_cons] at hk
      have hP : 0 < ds.prod := by
        rcases Nat.eq_zero_or_pos ds.prod with h0 | h
        · rw [h0, Nat.mul_zero] at hk; omega
        · exact h
      rw [unflatten, List.zip_cons_cons] at hp
      rcases List.mem_cons.mp hp with heq | hp
      · subst heq
        show k / ds.prod < d
        exact (Nat.div_lt_iff_lt_mul hP).mpr (by omega)
      · exact ih (k % ds.prod) (Nat.mod_lt k hP) p hp

/-- Helper: flattening inverts unflattening below the shape's size. -/
theorem flatten_unflatten (shape : List Nat) (k : Nat)
    (hk : k < shape.prod) :
    flatten shape (unflatten shape k) = k := by
  induction shape generalizing k with
  | nil =>
      have hk0 : k = 0 := by
        rw [List.prod_nil] at hk
        omega
      rw [hk0]
      rfl
  | cons d ds ih =>
      rw [List.prod_cons] at hk
      have hP : 0 < ds.prod := by
        rcases Nat.eq_zero_or_pos ds.prod with h0 | h
        · rw [h0, Nat.mul_zero] at hk; omega
        · exact h
      rw [unflatten, flatten, ih (k % ds.prod) (Nat.mod_lt k hP)]
      rw [Nat.mul_comm]
      exact Nat.div_add_mod k ds.prod

/-- Helper: leading size-1 dims with zero coordinates do not contribute. -/
theorem flatten_pad_zeros (j : Nat) (s ix : List Nat) :
    flatten (List.replicate j 1 ++ s) (List.replicate j 0 ++ ix)
      = flatten s ix := by
  induction j with
  | zero => rfl
  | succ j' ih =>
      rw [List.replicate_succ, List.replicate_succ, List.cons_append,
        List.cons_append, flatten, ih]
      omega

/-- Helper: a list of coordinates taken mod all-1 dims is all zeros. -/
theorem zip_mod_ones (l : List Nat) (j : Nat) (hl : l.length = j) :
    List.zipWith (fun i d => i % d) l (List.replicate j 1)
      = List.replicate j 0 := by
  induction l generalizing j with
  | nil => rw [← hl]; rfl
  | cons x t ih =>
      cases j with
      | zero => cases hl
      | succ j' =>
          rw [List.replicate_succ, List.zipWith_cons_cons,
            ih j' (by simpa using hl), List.replicate_succ, Nat.mod_one]

/-- Helper: in-range coordinates are unchanged by the per-dim mod. -/
theorem zip_mod_id (xs s : List Nat) (hlen : xs.length = s.length)
    (hbound : ∀ p ∈ List.zip xs s, p.1 < p.2) :
    List.zipWith (fun i d => i % d) xs s = xs := by
  induction xs generalizing s with
  | nil => rfl
  | cons x t ih =>
      cases s with
      | nil => cases hlen
      | cons d ds =>
          rw [List.zipWith_cons_cons]
          have hx : x < d := hbound (x, d) (by rw [List.zip_cons_cons]; simp)
          have hmem : ∀ p ∈ List.zip t ds, p ∈ List.zip (x :: t) (d :: ds) := by
            intro p hp
            rw [List.zip_cons_cons]
            exact List.mem_cons_of_mem _ hp
          rw [Nat.mod_eq_of_lt hx,
            ih ds (by simpa using hlen) (fun p hp => hbound p (hmem p hp))]

/-- Helper: per-dim mod agrees with the broadcast index map on compatible
in-range coordinates. -/
theorem zip_mod_eq_if1 (s xs bs : List Nat)
    (h1 : xs.length = s.length) (h2 : bs.length = s.length)
    (hcompat : ∀ p ∈ List.zip s bs, p.1 = 1 ∨ p.1 = p.2)
    (hbound : ∀ p ∈ List.zip xs bs, p.1 < p.2) :
    List.zipWith (fun i d => i % d) xs s
      = List.zipWith (fun d i => if d = 1 then 0 else i) s xs := by
  induction s generalizing xs bs with
  | nil =>
      cases xs with
      | nil => rfl
      | cons _ _ => cases h1
  | cons d ds ih =>
      cases xs with
      | nil => cases h1
      | cons x xt =>
          cases bs with
          | nil => cases h2
          | cons b bt =>
              have hc : d = 1 ∨ d = b :=
                hcompat (d, b) (by rw [List.zip_cons_cons]; simp)
              have hb : x < b :=
                hbound (x, b) (by rw [List.zip_cons_cons]; simp)
              have hmc : ∀ p ∈ List.zip ds bt, p ∈ List.zip (d :: ds) (b :: bt) := by
                intro p hp
                rw [List.zip_cons_cons]
                exact List.mem_cons_of_mem _ hp
              have hmb : ∀ p ∈ List.zip xt bt, p ∈ List.zip (x :: xt) (b :: bt) := by
                intro p hp
                rw [List.zip_cons_cons]
                exact List.mem_cons_of_mem _ hp
              have htail := ih xt bt (by simpa using h1) (by simpa using h2)
                (fun p hp => hcompat p (hmc p hp))
                (fun p hp => hbound p (hmb p hp))
              rw [List.zipWith_cons_cons, List.zipWith_cons_cons, htail]
              congr 1
              by_cases hd : d = 1
              · rw [hd, if_pos rfl, Nat.mod_one]
              · rw [if_neg hd]
                rcases hc with hc | hc
                · exact absurd hc hd
                · rw [hc]; exact Nat.mod_eq_of_lt hb

/-- Helper: the tiled shape of a compatible padded base recovers the
broadcast shape. -/
theorem tile_shape_eq (b p : List Nat) (hlen : p.length = b.length)
    (hcompat : ∀ q ∈ List.zip p b, q.1 = 1 ∨ q.1 = q.2) :
    List.zipWith (fun r d => r * d)
      (List.zipWith (fun m d => m / d) b p) p = b := by
  induction p generalizing b with
  | nil =>
      cases b with
      | nil => rfl
      | cons _ _ => cases hlen
  | cons p0 pt ih =>
      cases b with
      | nil => cases hlen
      | cons b0 bt =>
          rw [List.zipWith_cons_cons, List.zipWith_cons_cons]
          have hc : p0 = 1 ∨ p0 = b0 :=
            hcompat (p0, b0) (by rw [List.zip_cons_cons]; simp)
          have hmq : ∀ q ∈ List.zip pt bt, q ∈ List.zip (p0 :: pt) (b0 :: bt) := by
            intro q hq
            rw [List.zip_cons_cons]
            exact List.mem_cons_of_mem _ hq
          have htail := ih bt (by simpa using hlen)
            (fun q hq => hcompat q (hmq q hq))
          rw [htail]
          congr 1
          rcases hc with rfl | rfl
          · simp
          · rcases Nat.eq_zero_or_pos p0 with rfl | hp0
            · simp
            · rw [Nat.div_self hp0, Nat.one_mul]

/-- Helper: symmetric form of tensor equivalence. -/
theorem tensorEquiv_symm {a b : PTensor} (h : tensorEquiv a b) :
    tensorEquiv b a := by
  obtain ⟨hs, hd⟩ := h
  exact ⟨hs.symm, fun k hk => (hd k (by rw [hs]; exact hk)).symm⟩

/-- Helper: transitive form of tensor equivalence. -/
theorem tensorEquiv_trans {a b c : PTensor} (h1 : tensorEquiv a b)
    (h2 : tensorEquiv b c) : tensorEquiv a c := by
  obtain ⟨hs1, hd1⟩ := h1
  obtain ⟨hs2, hd2⟩ := h2
  exact ⟨hs1.trans hs2, fun k hk =>
    (hd1 k hk).trans (hd2 k (by rw [← hs1]; exact hk))⟩

/-- Helper: tiling with all-1 repetitions is the identity up to
equivalence. -/
theorem tile_ones (v : PTensor) (reps : List Nat)
    (hlen : reps.length = v.shape.length)
    (hone : ∀ r ∈ reps, r = 1) :
    tensorEquiv (npTile v reps) v := by
  have hreps : reps = List.replicate v.shape.length 1 := by
    rw [List.eq_replicate_iff]
    exact ⟨hlen, hone⟩
  have hshape : List.zipWith (fun r d => r * d) reps v.shape = v.shape := by
    rw [hreps]
    clear hlen hone hreps
    induction v.shape with
    | nil => rfl
    | cons d ds ih =>
        rw [List.length_cons, List.replicate_succ, List.zipWith_cons_cons,
          Nat.one_mul, ih]
  refine ⟨by rw [npTile, hshape], ?_⟩
  intro k hk
  rw [npTile] at hk ⊢
  simp only at hk ⊢
  rw [hshape] at hk ⊢
  rw [zip_mod_id _ _ (by rw [length_unflatten])
    (unflatten_bounds _ _ hk), flatten_unflatten _ _ hk]

/-- Helper (key step): tiling the left-padded base by `b / p` equals
broadcasting the base to `b`. -/
theorem tile_pad_eq_broadcast (t : PTensor) (b : List Nat)
    (hlen : t.shape.length ≤ b.length)
    (hcompat : ∀ q ∈ List.zip (padTo b.length t.shape) b,
      q.1 = 1 ∨ q.1 = q.2) :
    tensorEquiv
      (npTile { shape := padTo b.length t.shape, data := t.data }
        (List.zipWith (fun m d => m / d) b (padTo b.length t.shape)))
      (npBroadcastTo t b) := by
  set p := padTo b.length t.shape with hp
  set j := b.length - t.shape.length with hj
  have hplen : p.length = b.length := by
    rw [hp, padTo, List.length_append, List.length_replicate]
    omega
  have hshape : List.zipWith (fun r d => r * d)
      (List.zipWith (fun m d => m / d) b p) p = b :=
    tile_shape_eq b p hplen hcompat
  refine ⟨by rw [npTile, npBroadcastTo]; simp only; rw [hshape], ?_⟩
  intro k hk
  rw [npTile] at hk
  simp only at hk
  rw [hshape] at hk
  rw [npTile, npBroadcastTo]
  simp only
  rw [hshape]
  set u := unflatten b k with hu
  have hulen : u.length = b.length := by rw [hu, length_unflatten]
  have hubound : ∀ q ∈ List.zip u b, q.1 < q.2 :=
    unflatten_bounds b k hk
  have hsplitu : u = u.take j ++ u.drop j := (List.take_append_drop j u).symm
  have htklen : (u.take j).length = j := by
    rw [List.length_take]
    omega
  have hsplitb : b = b.take j ++ b.drop j := (List.take_append_drop j b).symm
  have hbtklen : (b.take j).length = j := by
    rw [List.length_take]
    omega
  have hmodsplit : List.zipWith (fun i d => i % d) u p
      = List.zipWith (fun i d => i % d) (u.take j) (List.replicate j 1) ++
        List.zipWith (fun i d => i % d) (u.drop j) t.shape := by
    conv => lhs; rw [hsplitu, hp, padTo, ← hj]
    exact List.zipWith_append _ _ _ _ _
      (by rw [htklen, List.length_replicate])
  have hmodones : List.zipWith (fun i d => i % d) (u.take j)
      (List.replicate j 1) = List.replicate j 0 :=
    zip_mod_ones _ j htklen
  have hzipu : List.zip u b = List.zip (u.take j) (b.take j) ++
      List.zip (u.drop j) (b.drop j) := by
    conv => lhs; rw [hsplitu, hsplitb]
    exact List.zip_append (by rw [htklen, hbtklen])
  have hzipp : List.zip p b = List.zip (List.replicate j 1) (b.take j) ++
      List.zip t.shape (b.drop j) := by
    rw [hp, padTo, ← hj]
    conv => lhs; rw [hsplitb]
    exact List.zip_append (by rw [List.length_replicate, hbtklen])
  have hdropbound : ∀ q ∈ List.zip (u.drop j) (b.drop j), q.1 < q.2 := by
    intro q hq
    refine hubound q ?_
    rw [hzipu]
    exact List.mem_append_right _ hq
  have hdropcompat : ∀ q ∈ List.zip t.shape (b.drop j),
      q.1 = 1 ∨ q.1 = q.2 := by
    intro q hq
    refine hcompat q ?_
    rw [hzipp]
    exact List.mem_append_right _ hq
  have hmodif : List.zipWith (fun i d => i % d) (u.drop j) t.shape
      = List.zipWith (fun d i => if d = 1 then 0 else i) t.shape
          (u.drop j) :=
    zip_mod_eq_if1 t.shape (u.drop j) (b.drop j)
      (by rw [List.length_drop, hulen]; omega)
      (by rw [List.length_drop]; omega)
      hdropcompat hdropbound
  rw [hmodsplit, hmodones, hp, padTo, ← hj, flatten_pad_zeros, hmodif]

/-- Helper: every element is at most the `foldr max`. -/
theorem le_foldr_max (l : List Nat) : ∀ x ∈ l, x ≤ l.foldr max 0 := by
  induction l with
  | nil => intro x hx; cases hx
  | cons a t ih =>
      intro x hx
      rcases List.mem_cons.mp hx with rfl | hx
      · exact Nat.le_max_left _ _
      · exact Nat.le_trans (ih x hx) (Nat.le_max_right _ _)

/-- Helper: the `foldr max` of a non-empty list is attained. -/
theorem foldr_max_mem (l : List Nat) (h : l ≠ []) :
    l.foldr max 0 ∈ l := by
  induction l with
  | nil => exact absurd rfl h
  | cons a t ih =>
      cases t with
      | nil => simp
      | cons b t' =>
          have hmem := ih (by simp)
          rw [List.foldr_cons]
          rcases Nat.le_total a ((b :: t').foldr max 0) with hle | hle
          · rw [Nat.max_eq_right hle]
            exact List.mem_cons_of_mem _ hmem
          · rw [Nat.max_eq_left hle]
            simp

/-- Helper: a shape's rank never exceeds `max_rank`. -/
theorem length_le_maxRankOf (shapes : List (List Nat)) (s : List Nat)
    (hs : s ∈ shapes) : s.length ≤ maxRankOf shapes :=
  le_foldr_max _ _ (List.mem_map_of_mem List.length hs)

/-- Helper: some shape attains `max_rank`. -/
theorem exists_maxRankOf (shapes : List (List Nat)) (h : shapes ≠ []) :
    ∃ s ∈ shapes, s.length = maxRankOf shapes := by
  have hmem : maxRankOf shapes ∈ shapes.map List.length :=
    foldr_max_mem _ (by simpa using h)
  obtain ⟨s, hs, hlen⟩ := List.mem_map.mp hmem
  exact ⟨s, hs, hlen⟩

/-- Helper: padding reaches exactly rank `m`. -/
theorem padTo_length (m : Nat) (s : List Nat) (h : s.length ≤ m) :
    (padTo m s).length = m := by
  rw [padTo, List.length_append, List.length_replicate]
  omega

/-- Helper: padding with 1s preserves the total size. -/
theorem prod_padTo (m : Nat) (s : List Nat) :
    (padTo m s).prod = s.prod := by
  rw [padTo, List.prod_append, List.prod_replicate, one_pow, Nat.one_mul]

/-- Helper: a full-rank shape pads to itself. -/
theorem padTo_self (m : Nat) (s : List Nat) (h : s.length = m) :
    padTo m s = s := by
  rw [padTo, h, Nat.sub_self, List.replicate_zero, List.nil_append]

/-- Helper: the columnwise-maximum fold preserves row rank. -/
theorem foldl_zipmax_length (m : Nat) :
    ∀ (rs : List (List Nat)) (acc : List Nat), acc.length = m →
      (∀ r ∈ rs, r.length = m) →
      (rs.foldl (fun a s => List.zipWith max a s) acc).length = m := by
  intro rs
  induction rs with
  | nil => intro acc ha _; exact ha
  | cons r2 t ih =>
      intro acc ha hall
      rw [List.foldl_cons]
      refine ih _ ?_ ?_
      · rw [List.length_zipWith, ha, hall r2 (by simp)]
        exact Nat.min_self m
      · intro x hx
        exact hall x (List.mem_cons_of_mem _ hx)

/-- Helper: the columnwise maximum of non-empty equal-rank rows has that
rank. -/
theorem colMax_length (rows : List (List Nat)) (m : Nat)
    (hne : rows ≠ []) (hlen : ∀ r ∈ rows, r.length = m) :
    (colMax rows).length = m := by
  cases rows with
  | nil => exact absurd rfl hne
  | cons r rs =>
      rw [colMax]
      exact foldl_zipmax_length m rs r (hlen r (by simp))
        (fun x hx => hlen x (List.mem_cons_of_mem _ hx))

/-- Helper: dim-compatibility with `b` survives the pairwise maximum. -/
theorem zip_max_compat (r md bb : List Nat)
    (h1 : ∀ q ∈ List.zip r bb, q.1 = 1 ∨ q.1 = q.2)
    (h2 : ∀ q ∈ List.zip md bb, q.1 = 1 ∨ q.1 = q.2) :
    ∀ q ∈ List.zip (List.zipWith max r md) bb, q.1 = 1 ∨ q.1 = q.2 := by
  induction r generalizing md bb with
  | nil => intro q hq; cases hq
  | cons r0 rt ih =>
      cases md with
      | nil => intro q hq; cases hq
      | cons m0 mt =>
          cases bb with
          | nil => intro q hq; cases hq
          | cons b0 bt =>
              intro q hq
              rw [List.zipWith_cons_cons, List.zip_cons_cons] at hq
              have hm1 : ∀ q' ∈ List.zip rt bt,
                  q' ∈ List.zip (r0 :: rt) (b0 :: bt) := by
                intro q' hq'
                rw [List.zip_cons_cons]
                exact List.mem_cons_of_mem _ hq'
              have hm2 : ∀ q' ∈ List.zip mt bt,
                  q' ∈ List.zip (m0 :: mt) (b0 :: bt) := by
                intro q' hq'
                rw [List.zip_cons_cons]
                exact List.mem_cons_of_mem _ hq'
              rcases List.mem_cons.mp hq with heq | hq
              · subst heq
                have hr0 : r0 = 1 ∨ r0 = b0 :=
                  h1 (r0, b0) (by rw [List.zip_cons_cons]; simp)
                have hm0 : m0 = 1 ∨ m0 = b0 :=
                  h2 (m0, b0) (by rw [List.zip_cons_cons]; simp)
                show max r0 m0 = 1 ∨ max r0 m0 = b0
                rcases hr0 with h | h <;> rcases hm0 with h' | h'
                · rw [h, h']; left; exact Nat.max_self 1
                · rw [h, h']
                  rcases Nat.le_total 1 b0 with hle | hle
                  · right; exact Nat.max_eq_right hle
                  · left; exact Nat.max_eq_left hle
                · rw [h, h']
                  rcases Nat.le_total b0 1 with hle | hle
                  · left; exact Nat.max_eq_right hle
                  · right; exact Nat.max_eq_left hle
                · rw [h, h']; right; exact Nat.max_self b0
              · exact ih mt bt (fun q' hq' => h1 q' (hm1 q' hq'))
                  (fun q' hq' => h2 q' (hm2 q' hq')) q hq

/-- Helper: dim-compatibility with `b` survives the columnwise-maximum
fold. -/
theorem foldl_zipmax_compat (bb : List Nat) :
    ∀ (rs : List (List Nat)) (acc : List Nat),
      (∀ q ∈ List.zip acc bb, q.1 = 1 ∨ q.1 = q.2) →
      (∀ r ∈ rs, ∀ q ∈ List.zip r bb, q.1 = 1 ∨ q.1 = q.2) →
      ∀ q ∈ List.zip (rs.foldl (fun a s => List.zipWith max a s) acc) bb,
        q.1 = 1 ∨ q.1 = q.2 := by
  intro rs
  induction rs with
  | nil => intro acc ha _; exact ha
  | cons r2 t ih =>
      intro acc ha hall
      rw [List.foldl_cons]
      exact ih _ (zip_max_compat acc r2 bb ha (hall r2 (by simp)))
        (fun x hx => hall x (List.mem_cons_of_mem _ hx))

/-- Helper: dim-compatibility with `b` survives the columnwise maximum. -/
theorem colMax_compat (rows : List (List Nat)) (bb : List Nat)
    (hne : rows ≠ [])
    (hc : ∀ r ∈ rows, ∀ q ∈ List.zip r bb, q.1 = 1 ∨ q.1 = q.2) :
    ∀ q ∈ List.zip (colMax rows) bb, q.1 = 1 ∨ q.1 = q.2 := by
  cases rows with
  | nil => exact absurd rfl hne
  | cons r rs =>
      rw [colMax]
      exact foldl_zipmax_compat bb rs r (hc r (by simp))
        (fun x hx => hc x (List.mem_cons_of_mem _ hx))

/-- Helper: two lists that are each dim-compatible with the same reference
satisfy the fourth alignment check pairwise. -/
theorem zip_check4 (s md bb : List Nat)
    (hlb : min s.length md.length ≤ bb.length)
    (h1 : ∀ q ∈ List.zip s bb, q.1 = 1 ∨ q.1 = q.2)
    (h2 : ∀ q ∈ List.zip md bb, q.1 = 1 ∨ q.1 = q.2) :
    ∀ q ∈ List.zip s md, q.1 = q.2 ∨ q.1 = 1 ∨ q.2 = 1 := by
  induction s generalizing md bb with
  | nil => intro q hq; cases hq
  | cons s0 st ih =>
      cases md with
      | nil => intro q hq; cases hq
      | cons m0 mt =>
          cases bb with
          | nil =>
              exfalso
              simp only [List.length_cons, List.length_nil] at hlb
              omega
          | cons b0 bt =>
              intro q hq
              rw [List.zip_cons_cons] at hq
              have hm1 : ∀ q' ∈ List.zip st bt,
                  q' ∈ List.zip (s0 :: st) (b0 :: bt) := by
                intro q' hq'
                rw [List.zip_cons_cons]
                exact List.mem_cons_of_mem _ hq'
              have hm2 : ∀ q' ∈ List.zip mt bt,
                  q' ∈ List.zip (m0 :: mt) (b0 :: bt) := by
                intro q' hq'
                rw [List.zip_cons_cons]
                exact List.mem_cons_of_mem _ hq'
              rcases List.mem_cons.mp hq with heq | hq
              · subst heq
                have hs0 : s0 = 1 ∨ s0 = b0 :=
                  h1 (s0, b0) (by rw [List.zip_cons_cons]; simp)
                have hm0 : m0 = 1 ∨ m0 = b0 :=
                  h2 (m0, b0) (by rw [List.zip_cons_cons]; simp)
                show s0 = m0 ∨ s0 = 1 ∨ m0 = 1
                rcases hs0 with h | h <;> rcases hm0 with h' | h'
                · left; rw [h, h']
                · right; left; exact h
                · right; right; exact h'
                · left; rw [h, h']
              · refine ih mt bt ?_ (fun q' hq' => h1 q' (hm1 q' hq'))
                  (fun q' hq' => h2 q' (hm2 q' hq')) q hq
                simp only [List.length_cons] at hlb
                omega

/-- Helper: under the invariant and compatibility, the right-to-left offset
search succeeds immediately at the full left-padding offset. -/
theorem findOffset_false_eq (m : Nat) (b : List Nat) (hbl : b.length = m)
    (md s : List Nat) (hinv : mdInv m b md) (hsc : shapeCompat m b s)
    (hslt : s.length < m) :
    findOffset false s md = some (md.length - s.length) := by
  obtain ⟨hmdl, hmdc⟩ := hinv
  obtain ⟨hsm, hscz⟩ := hsc
  set dd := md.length - s.length with hdd
  have hddm : dd = m - s.length := by rw [hdd, hmdl]
  have hbsplit : b = b.take dd ++ b.drop dd :=
    (List.take_append_drop dd b).symm
  have hbtk : (b.take dd).length = dd := by
    rw [List.length_take]
    omega
  have hscomp : ∀ q ∈ List.zip s (b.drop dd), q.1 = 1 ∨ q.1 = q.2 := by
    intro q hq
    refine hscz q ?_
    rw [padTo, ← hddm]
    have hzsplit : List.zip (List.replicate dd 1 ++ s) b
        = List.zip (List.replicate dd 1) (b.take dd) ++
          List.zip s (b.drop dd) := by
      conv => lhs; rw [hbsplit]
      exact List.zip_append (by rw [List.length_replicate, hbtk])
    rw [hzsplit]
    exact List.mem_append_right _ hq
  have hmdrop : ∀ q ∈ List.zip (md.drop dd) (b.drop dd),
      q.1 = 1 ∨ q.1 = q.2 := by
    intro q hq
    refine hmdc q ?_
    have hmsplit : md = md.take dd ++ md.drop dd :=
      (List.take_append_drop dd md).symm
    have hmtk : (md.take dd).length = dd := by
      rw [List.length_take]
      omega
    have hzsplit : List.zip md b
        = List.zip (md.take dd) (b.take dd) ++
          List.zip (md.drop dd) (b.drop dd) := by
      conv => lhs; rw [hmsplit, hbsplit]
      exact List.zip_append (by rw [hmtk, hbtk])
    rw [hzsplit]
    exact List.mem_append_right _ hq
  have hc4 : ∀ q ∈ List.zip s (md.drop dd),
      q.1 = q.2 ∨ q.1 = 1 ∨ q.2 = 1 := by
    refine zip_check4 s (md.drop dd) (b.drop dd) ?_ hscomp hmdrop
    rw [List.length_drop, List.length_drop, hmdl, hbl]
    omega
  have h4 : (List.zip s (md.drop dd)).all
      (fun p => decide (p.1 = p.2 ∨ p.1 = 1 ∨ p.2 = 1)) = true := by
    rw [List.all_eq_true]
    intro x hx
    exact decide_eq_true (hc4 x hx)
  have hchecks : bcChecks s md dd = true := by
    simp only [bcChecks]
    rw [h4]
    simp
  simp only [findOffset, Bool.false_eq_true, if_false]
  rw [← hdd, List.range_succ, List.reverse_append,
    List.reverse_singleton, List.singleton_append,
    List.find?_cons_of_pos _ hchecks]

/-- Helper: full specification of one rank's inner loop: the invariant is
kept, the dictionary only grows, every rank-`r` shape gets its left-padded
form recorded, and every recorded entry is a left-padded input shape. -/
theorem procRank_spec (m : Nat) (b : List Nat) (hbl : b.length = m)
    (idxAll : List (Nat × List Nat)) (r : Nat) (hr : 0 < r) :
    ∀ (ls : List (Nat × List Nat)) (md : List Nat)
      (dict : List (Nat × List Nat)),
      mdInv m b md →
      (∀ p ∈ ls, shapeCompat m b p.2) →
      (∀ p ∈ ls, p ∈ idxAll) →
      mdInv m b (procRank false r ls md dict).1 ∧
      (∀ e ∈ dict, e ∈ (procRank false r ls md dict).2) ∧
      (∀ p ∈ ls, p.2.length = r → p.2.length < m →
        (p.1, padTo m p.2) ∈ (procRank false r ls md dict).2) ∧
      (∀ e ∈ (procRank false r ls md dict).2,
        e ∈ dict ∨ ∃ s', (e.1, s') ∈ idxAll ∧ 0 < s'.length ∧
          s'.length < m ∧ e.2 = padTo m s') := by
  intro ls
  induction ls with
  | nil =>
      intro md dict hinv _ _
      exact ⟨hinv, fun e he => he, fun p hp => absurd hp (by simp),
        fun e he => Or.inl he⟩
  | cons hd rest ih =>
      rcases hd with ⟨i, s⟩
      intro md dict hinv hcomp hsub
      by_cases hcond : s.length = r ∧ s.length < md.length
      · have hsc : shapeCompat m b s := hcomp (i, s) (by simp)
        have hslt : s.length < m := by
          rw [← hinv.1]
          exact hcond.2
        have hoff := findOffset_false_eq m b hbl md s hinv hsc hslt
        have hcur : List.replicate (md.length - s.length) 1 ++ s ++
            List.replicate (md.length - s.length -
              (md.length - s.length)) 1 = padTo m s := by
          rw [Nat.sub_self, List.replicate_zero, List.append_nil, padTo,
            hinv.1]
        have hstep : procRank false r ((i, s) :: rest) md dict
            = procRank false r rest (List.zipWith max (padTo m s) md)
                (dict ++ [(i, padTo m s)]) := by
          rw [procRank, if_pos hcond, hoff, ← hcur]
        have hinv' : mdInv m b (List.zipWith max (padTo m s) md) := by
          constructor
          · rw [List.length_zipWith,
              padTo_length m s (Nat.le_of_lt hslt), hinv.1]
            exact Nat.min_self m
          · exact zip_max_compat _ md b hsc.2 hinv.2
        obtain ⟨ih1, ih2, ih3, ih4⟩ := ih (List.zipWith max (padTo m s) md)
          (dict ++ [(i, padTo m s)]) hinv'
          (fun p hp => hcomp p (List.mem_cons_of_mem _ hp))
          (fun p hp => hsub p (List.mem_cons_of_mem _ hp))
        rw [hstep]
        refine ⟨ih1, ?_, ?_, ?_⟩
        · intro e he
          exact ih2 e (List.mem_append_left _ he)
        · intro p hp hpr hpm
          rcases List.mem_cons.mp hp with heq | hp
          · subst heq
            exact ih2 _ (List.mem_append_right _ (by simp))
          · exact ih3 p hp hpr hpm
        · intro e he
          rcases ih4 e he with hin | hex
          · rcases List.mem_append.mp hin with hin | hin
            · exact Or.inl hin
            · have he' : e = (i, padTo m s) := by simpa using hin
              subst he'
              exact Or.inr ⟨s, hsub (i, s) (by simp), by omega, hslt, rfl⟩
          · exact Or.inr hex
      · have hstep : procRank false r ((i, s) :: rest) md dict
            = procRank false r rest md dict := by
          rw [procRank, if_neg hcond]
        obtain ⟨ih1, ih2, ih3, ih4⟩ := ih md dict hinv
          (fun p hp => hcomp p (List.mem_cons_of_mem _ hp))
          (fun p hp => hsub p (List.mem_cons_of_mem _ hp))
        rw [hstep]
        refine ⟨ih1, ih2, ?_, ih4⟩
        intro p hp hpr hpm
        rcases List.mem_cons.mp hp with heq | hp
        · subst heq
          exact absurd ⟨hpr, by rw [hinv.1]; exact hpm⟩ hcond
        · exact ih3 p hp hpr hpm

/-- Helper: full specification of the outer rank loop. -/
theorem procFold_spec (m : Nat) (b : List Nat) (hbl : b.length = m)
    (idxAll : List (Nat × List Nat))
    (hAll : ∀ p ∈ idxAll, shapeCompat m b p.2) :
    ∀ (ranks : List Nat), (∀ r ∈ ranks, 0 < r) →
    ∀ (st : List Nat × List (Nat × List Nat)),
      mdInv m b st.1 →
      (∀ e ∈ st.2, ∃ s', (e.1, s') ∈ idxAll ∧ 0 < s'.length ∧
        s'.length < m ∧ e.2 = padTo m s') →
      mdInv m b (ranks.foldl
        (fun st r => procRank false r idxAll st.1 st.2) st).1 ∧
      (∀ e ∈ (ranks.foldl
          (fun st r => procRank false r idxAll st.1 st.2) st).2,
        ∃ s', (e.1, s') ∈ idxAll ∧ 0 < s'.length ∧ s'.length < m ∧
          e.2 = padTo m s') ∧
      (∀ e ∈ st.2, e ∈ (ranks.foldl
        (fun st r => procRank false r idxAll st.1 st.2) st).2) ∧
      (∀ p ∈ idxAll, p.2.length ∈ ranks → p.2.length < m →
        (p.1, padTo m p.2) ∈ (ranks.foldl
          (fun st r => procRank false r idxAll st.1 st.2) st).2) := by
  intro ranks
  induction ranks with
  | nil =>
      intro _ st hinv hok
      exact ⟨hinv, hok, fun e he => he,
        fun p _ hmem => absurd hmem (by simp)⟩
  | cons r rs ih =>
      intro hranks st hinv hok
      rw [List.foldl_cons]
      obtain ⟨pr1, pr2, pr3, pr4⟩ := procRank_spec m b hbl idxAll r
        (hranks r (by simp)) idxAll st.1 st.2 hinv hAll (fun p hp => hp)
      have hok' : ∀ e ∈ (procRank false r idxAll st.1 st.2).2,
          ∃ s', (e.1, s') ∈ idxAll ∧ 0 < s'.length ∧ s'.length < m ∧
            e.2 = padTo m s' := by
        intro e he
        rcases pr4 e he with hin | hex
        · exact hok e hin
        · exact hex
      obtain ⟨f1, f2, f3, f4⟩ := ih
        (fun r' hr' => hranks r' (List.mem_cons_of_mem _ hr'))
        (procRank false r idxAll st.1 st.2) pr1 hok'
      refine ⟨f1, f2, ?_, ?_⟩
      · intro e he
        exact f3 e (pr2 e he)
      · intro p hp hmem hpm
        rcases List.mem_cons.mp hmem with heq | hmem
        · exact f3 _ (pr3 p hp heq hpm)
        · exact f4 p hp hmem hpm

/-- Helper: the rank list `range(max_rank-1, 0, -1)` contains exactly the
positive ranks below `max_rank`. -/
theorem mem_ranks_iff (m r : Nat) :
    r ∈ ((List.range m).drop 1).reverse ↔ 0 < r ∧ r < m := by
  rw [List.mem_reverse]
  cases m with
  | zero => simp
  | succ m' =>
      rw [List.range_succ_eq_map]
      show r ∈ (List.range m').map Nat.succ ↔ _
      rw [List.mem_map]
      constructor
      · rintro ⟨k, hk, rfl⟩
        rw [List.mem_range] at hk
        omega
      · rintro ⟨h1, h2⟩
        refine ⟨r - 1, List.mem_range.mpr (by omega), by omega⟩

/-- Helper: a dictionary filled only with left-padded input shapes, once it
contains the entry for index `i`, looks it up correctly. -/
theorem dlookup_eq_of (shapes : List (List Nat)) (m : Nat)
    (dict : List (Nat × List Nat))
    (hOK : ∀ e ∈ dict, ∃ s', (e.1, s') ∈ shapes.enum ∧ 0 < s'.length ∧
      s'.length < m ∧ e.2 = padTo m s')
    (i : Nat) (s : List Nat) (hmem : (i, s) ∈ shapes.enum)
    (hcov : (i, padTo m s) ∈ dict) :
    dlookup dict i = some (padTo m s) := by
  have hsome : (dict.find? (fun p => p.1 = i)).isSome := by
    rw [List.find?_isSome]
    exact ⟨(i, padTo m s), hcov, by simp⟩
  obtain ⟨y, hy⟩ := Option.isSome_iff_exists.mp hsome
  have hy1 : y.1 = i := by
    have := List.find?_some hy
    simpa using this
  obtain ⟨s', hs'mem, _, _, hy2⟩ := hOK y (List.mem_of_find?_eq_some hy)
  have hs'i : (i, s') ∈ shapes.enum := by
    rw [← hy1]
    exact hs'mem
  have hss' : s' = s := by
    have hg1 : shapes[i]? = some s' := by
      simpa using List.mem_enum_iff_getElem?.mp hs'i
    have hg2 : shapes[i]? = some s := by
      simpa using List.mem_enum_iff_getElem?.mp hmem
    rw [hg1] at hg2
    exact Option.some.inj hg2
  rw [dlookup, hy]
  simp [hy2, hss']

/-- Helper: when every mid-rank entry can be looked up, `reshape_dims` is
exactly the left-padded shape list. -/
theorem buildReshapeDims_eq (m : Nat) (dict : List (Nat × List Nat)) :
    ∀ (ls : List (Nat × List Nat)),
      (∀ p ∈ ls, 0 < p.2.length → p.2.length < m →
        dlookup dict p.1 = some (padTo m p.2)) →
      (∀ p ∈ ls, p.2.length ≤ m) →
      buildReshapeDims ls m dict = some (ls.map (fun p => padTo m p.2)) := by
  intro ls
  induction ls with
  | nil => intro _ _; rfl
  | cons hd rest ih =>
      rcases hd with ⟨i, s⟩
      intro hdl hle
      have htail := ih (fun p hp => hdl p (List.mem_cons_of_mem _ hp))
        (fun p hp => hle p (List.mem_cons_of_mem _ hp))
      by_cases h0 : s.length = 0
      · have hs : s = [] := List.length_eq_zero.mp h0
        subst hs
        rw [buildReshapeDims, if_pos h0, htail, List.map_cons]
        have hpe : padTo m ([] : List Nat) = List.replicate m 1 := by
          simp [padTo]
        rw [hpe]
        rfl
      · by_cases hm : s.length = m
        · rw [buildReshapeDims, if_neg h0, if_pos hm, htail,
            List.map_cons, padTo_self m s hm]
          rfl
        · have hlt : s.length < m :=
            Nat.lt_of_le_of_ne (hle (i, s) (by simp)) hm
          have hpos : 0 < s.length := Nat.pos_of_ne_zero h0
          have hdl' := hdl (i, s) (by simp) hpos hlt
          rw [buildReshapeDims, if_neg h0, if_neg hm, hdl', htail,
            List.map_cons]
          rfl

/-- Helper: a `zipWith` whose arguments are a zip with a mapped copy and a
further map collapses to one map. -/
theorem zipWith_zip_map {α β γ δ : Type} (l : List α) (g : α → β)
    (h : β → γ) (f : (α × β) → γ → δ) :
    List.zipWith f (l.zip (l.map g)) ((l.map g).map h)
      = l.map (fun a => f (a, g a) (h (g a))) := by
  induction l with
  | nil => rfl
  | cons a t ih =>
      rw [List.map_cons, List.map_cons, List.zip_cons_cons,
        List.zipWith_cons_cons, ih]
      rfl

/-- Helper: a member of an `enum` projects to a member of the list. -/
theorem snd_mem_of_mem_enum {α : Type} {l : List α} {p : Nat × α}
    (hp : p ∈ l.enum) : p.2 ∈ l := by
  have := List.mem_enum_iff_getElem?.mp hp
  exact List.getElem?_mem this

/-- Helper: under columnwise-maximum compatibility, `cal_reshape_and_tile`
(with the default right alignment) computes, for every input, the
left-padding reshape and the `b / padded` tile against the
columnwise-maximum shape `b`. -/
theorem cal_reshape_and_tile_spec (shapes : List (List Nat))
    (h2 : 2 ≤ shapes.length) (hcompat : padMaxCompat shapes) :
    cal_reshape_and_tile shapes false =
      some (shapes.map
        (bcMeta (maxRankOf shapes) (npBroadcastShape shapes))) := by
  have hne : shapes ≠ [] := by
    intro h
    rw [h] at h2
    simp at h2
  have hlen_le : ∀ s ∈ shapes, s.length ≤ maxRankOf shapes :=
    fun s hs => length_le_maxRankOf shapes s hs
  have hbl : (npBroadcastShape shapes).length = maxRankOf shapes := by
    rw [npBroadcastShape]
    refine colMax_length _ _ (by simpa using hne) ?_
    intro r hr
    obtain ⟨s, hs, rfl⟩ := List.mem_map.mp hr
    exact padTo_length _ s (hlen_le s hs)
  have hsc : ∀ s ∈ shapes,
      shapeCompat (maxRankOf shapes) (npBroadcastShape shapes) s :=
    fun s hs => ⟨hlen_le s hs, hcompat s hs⟩
  have hAll : ∀ p ∈ shapes.enum,
      shapeCompat (maxRankOf shapes) (npBroadcastShape shapes) p.2 :=
    fun p hp => hsc p.2 (snd_mem_of_mem_enum hp)
  have hfilter_ne :
      shapes.filter (fun s => s.length = maxRankOf shapes) ≠ [] := by
    obtain ⟨s0, hs0, hlen0⟩ := exists_maxRankOf shapes hne
    exact List.ne_nil_of_mem
      (List.mem_filter.mpr ⟨hs0, by simpa using hlen0⟩)
  have hinv0 : mdInv (maxRankOf shapes) (npBroadcastShape shapes)
      (colMax (shapes.filter (fun s => s.length = maxRankOf shapes))) := by
    constructor
    · refine colMax_length _ _ hfilter_ne ?_
      intro r hr
      exact of_decide_eq_true (List.mem_filter.mp hr).2
    · refine colMax_compat _ _ hfilter_ne ?_
      intro r hr
      have hrs := List.mem_filter.mp hr
      have hrlen : r.length = maxRankOf shapes :=
        of_decide_eq_true hrs.2
      have := (hsc r hrs.1).2
      rwa [padTo_self _ r hrlen] at this
  have hranks : ∀ r ∈ ((List.range (maxRankOf shapes)).drop 1).reverse,
      0 < r := fun r hr => ((mem_ranks_iff _ r).mp hr).1
  obtain ⟨f1, f2, f3, f4⟩ := procFold_spec (maxRankOf shapes)
    (npBroadcastShape shapes) hbl shapes.enum hAll
    (((List.range (maxRankOf shapes)).drop 1).reverse) hranks
    (colMax (shapes.filter (fun s => s.length = maxRankOf shapes)), [])
    hinv0 (fun e he => absurd he (by simp))
  have hbuild : buildReshapeDims shapes.enum (maxRankOf shapes)
      (procLoop false shapes.enum
        (((List.range (maxRankOf shapes)).drop 1).reverse)
        (colMax (shapes.filter
          (fun s => s.length = maxRankOf shapes)))).2
      = some (shapes.enum.map (fun p => padTo (maxRankOf shapes) p.2)) := by
    rw [procLoop]
    refine buildReshapeDims_eq _ _ _ ?_ ?_
    · intro p hp hpos hplt
      rcases p with ⟨i, s⟩
      refine dlookup_eq_of shapes _ _ f2 i s hp ?_
      refine f4 (i, s) hp ?_ hplt
      exact (mem_ranks_iff _ _).mpr ⟨hpos, hplt⟩
    · intro p hp
      exact hlen_le p.2 (snd_mem_of_mem_enum hp)
  have hrd : shapes.enum.map (fun p => padTo (maxRankOf shapes) p.2)
      = shapes.map (padTo (maxRankOf shapes)) := by
    rw [show (fun (p : Nat × List Nat) => padTo (maxRankOf shapes) p.2)
        = (padTo (maxRankOf shapes)) ∘ Prod.snd from rfl,
      ← List.map_map, List.enum_map_snd]
  have hfself : (shapes.map (padTo (maxRankOf shapes))).filter
      (fun s => s.length = maxRankOf shapes)
      = shapes.map (padTo (maxRankOf shapes)) := by
    rw [List.filter_eq_self]
    intro a ha
    obtain ⟨s, hs, rfl⟩ := List.mem_map.mp ha
    exact decide_eq_true (padTo_length _ s (hlen_le s hs))
  have hcm : colMax (shapes.map (padTo (maxRankOf shapes)))
      = npBroadcastShape shapes := by
    rw [npBroadcastShape]
  simp only [cal_reshape_and_tile, if_pos h2]
  rw [hbuild, Option.map_some']
  rw [hrd]
  simp only [hfself, hcm]
  rw [zipWith_zip_map]
  rfl

/-- Helper: a successful reshape phase determines `applyMeta`'s result. -/
theorem applyMeta_eq (t : PTensor) (m : BMeta) (v1 : PTensor)
    (h1 : m.reshape.elim (some t) (npReshape t) = some v1) :
    applyMeta t m = some (m.tile.elim v1 (npTile v1)) := by
  unfold applyMeta
  rw [h1, Option.map_some']

/-- Helper: `applyMetas` succeeds pointwise when every single application
succeeds, returning the list of per-pair results. -/
theorem applyMetas_spec (l : List (PTensor × BMeta))
    (hall : ∀ p ∈ l, (applyMeta p.1 p.2).isSome) :
    ∃ outs, applyMetas l = some outs ∧ outs.length = l.length ∧
      ∀ i (hi : i < l.length) (hi' : i < outs.length),
        applyMeta (l.get ⟨i, hi⟩).1 (l.get ⟨i, hi⟩).2
          = some (outs.get ⟨i, hi'⟩) := by
  induction l with
  | nil =>
      refine ⟨[], rfl, rfl, ?_⟩
      intro i hi hi'
      exact absurd hi (by simp)
  | cons p rest ih =>
      obtain ⟨v, hv⟩ := Option.isSome_iff_exists.mp (hall p (by simp))
      obtain ⟨outs, ho, hol, hoi⟩ :=
        ih (fun q hq => hall q (List.mem_cons_of_mem _ hq))
      refine ⟨v :: outs, ?_, by simp [hol], ?_⟩
      · rw [applyMetas, hv, ho]
        rfl
      · intro i hi hi'
        cases i with
        | zero => simpa using hv
        | succ n =>
            have hn : n < rest.length := by simpa using hi
            have hn' : n < outs.length := by simpa using hi'
            simpa using hoi n hn hn'

/-- Helper: membership in `l.zip (l.map g)` forces the second component. -/
theorem mem_zip_map {α β : Type} (l : List α) (g : α → β) (p : α × β)
    (hp : p ∈ l.zip (l.map g)) : p.1 ∈ l ∧ p.2 = g p.1 := by
  induction l with
  | nil => cases hp
  | cons a rest ih =>
      rw [List.map_cons, List.zip_cons_cons] at hp
      rcases List.mem_cons.mp hp with h | h
      · subst h
        exact ⟨List.mem_cons_self a rest, rfl⟩
      · obtain ⟨h1, h2⟩ := ih h
        exact ⟨List.mem_cons_of_mem _ h1, h2⟩

/-- Helper: applying a left-pad reshape and a `b / padded` tile to a tensor
whose padded shape is compatible with `b` yields its broadcast to `b`. -/
theorem applyMeta_meta_spec (t : PTensor) (b : List Nat) (meta : BMeta)
    (hre : meta.reshape = (if t.shape ≠ padTo b.length t.shape
      then some (padTo b.length t.shape) else Option.none))
    (hti : meta.tile = (if (List.zipWith (fun x y => x / y) b
        (padTo b.length t.shape)).any (fun x => x ≠ 1)
      then some (List.zipWith (fun x y => x / y) b
        (padTo b.length t.shape))
      else Option.none))
    (hlen : t.shape.length ≤ b.length)
    (hcompat : ∀ q ∈ List.zip (padTo b.length t.shape) b,
      q.1 = 1 ∨ q.1 = q.2) :
    ∃ out, applyMeta t meta = some out ∧
      tensorEquiv out (npBroadcastTo t b) := by
  have hplen : (padTo b.length t.shape).length = b.length :=
    padTo_length _ _ hlen
  have hkey := tile_pad_eq_broadcast t b hlen hcompat
  have hres : meta.reshape.elim (some t) (npReshape t)
      = some { shape := padTo b.length t.shape, data := t.data } := by
    rw [hre]
    by_cases hsh : t.shape = padTo b.length t.shape
    · rw [if_neg (fun hne => hne hsh)]
      show some t = some { shape := padTo b.length t.shape, data := t.data }
      rw [← hsh]
    · rw [if_pos hsh]
      show npReshape t (padTo b.length t.shape)
        = some { shape := padTo b.length t.shape, data := t.data }
      rw [npReshape, if_pos (prod_padTo b.length t.shape)]
  have happ := applyMeta_eq t meta _ hres
  cases hany : (List.zipWith (fun x y => x / y) b
      (padTo b.length t.shape)).any (fun x => x ≠ 1) with
  | false =>
      have htile : meta.tile = Option.none := by
        rw [hti, hany]
        exact if_neg Bool.false_ne_true
      rw [htile] at happ
      have hall1 : ∀ r ∈ List.zipWith (fun x y => x / y) b
          (padTo b.length t.shape), r = 1 := by
        intro r hr
        by_contra hne
        have : (List.zipWith (fun x y => x / y) b
            (padTo b.length t.shape)).any (fun x => x ≠ 1) = true :=
          List.any_eq_true.mpr ⟨r, hr, decide_eq_true hne⟩
        rw [hany] at this
        exact Bool.false_ne_true this
      have hto : tensorEquiv
          (npTile { shape := padTo b.length t.shape, data := t.data }
            (List.zipWith (fun x y => x / y) b (padTo b.length t.shape)))
          { shape := padTo b.length t.shape, data := t.data } := by
        refine tile_ones _ _ ?_ hall1
        simp [List.length_zipWith, hplen]
      exact ⟨{ shape := padTo b.length t.shape, data := t.data }, happ,
        tensorEquiv_trans (tensorEquiv_symm hto) hkey⟩
  | true =>
      have htile : meta.tile = some (List.zipWith (fun x y => x / y) b
          (padTo b.length t.shape)) := by
        rw [hti, hany]
        exact if_pos rfl
      rw [htile] at happ
      exact ⟨npTile { shape := padTo b.length t.shape, data := t.data }
        (List.zipWith (fun x y => x / y) b (padTo b.length t.shape)),
        happ, hkey⟩

/-- Helper: the length of the columnwise-maximum shape is the maximal
input rank. -/
theorem npBroadcastShape_length (shapes : List (List Nat))
    (h : shapes ≠ []) :
    (npBroadcastShape shapes).length = maxRankOf shapes := by
  rw [npBroadcastShape]
  refine colMax_length _ _ (by simpa using h) ?_
  intro r hr
  obtain ⟨s, hs, rfl⟩ := List.mem_map.mp hr
  exact padTo_length _ s (length_le_maxRankOf shapes s hs)

/-- **C8, counterexample**: the shapes `[1]` and `[0]` are mutually
broadcastable under numpy's rules with broadcast shape `[0]`
(`np.broadcast_shapes((1,), (0,)) = (0,)`), but `broad_cast` returns the
shape-`[1]` tensor unchanged while tiling the other to `[0]` (the computed
repetition is `max_dim // dim = 1 // 0 = 0`): the outputs do not all carry
the common numpy broadcast shape, refuting the claim as stated.  The
columnwise-maximum compatibility the amended theorem assumes excludes this
input. -/
theorem C8_counterexample :
    npBroadcastShapeN ([bcZ1, bcZ2].map (fun t => t.shape)) = some [0] ∧
    (broad_cast [bcZ1, bcZ2]).map (fun outs => outs.map (fun t => t.shape))
      = some [[1], [0]] ∧
    [1] ≠ ([0] : List Nat) ∧
    ¬ padMaxCompat ([bcZ1, bcZ2].map (fun t => t.shape)) := by
  refine ⟨?_, ?_, ?_, ?_⟩ <;> decide

/-- **C8, amended**: for every list of two or more tensors whose
left-padded shapes are columnwise-maximum compatible — numpy mutual
broadcastability minus the 0-dim-against-1-dim alignments on which the
claim fails — `broad_cast` returns a list of the
same length in which every tensor has the common broadcast shape (here the
columnwise maximum, which on this domain is the numpy broadcast shape) and
whose contents equal the corresponding input broadcast to that shape. -/
theorem C8_broadcast (inputs : List PTensor)
    (h2 : 2 ≤ inputs.length)
    (hcompat : padMaxCompat (inputs.map (fun t => t.shape))) :
    ∃ outs, broad_cast inputs = some outs ∧
      outs.length = inputs.length ∧
      ∀ i (hi : i < inputs.length) (hi' : i < outs.length),
        (outs.get ⟨i, hi'⟩).shape
          = npBroadcastShape (inputs.map (fun t => t.shape)) ∧
        ∀ k, k < (npBroadcastShape (inputs.map (fun t => t.shape))).prod →
          (outs.get ⟨i, hi'⟩).data k
            = (npBroadcastTo (inputs.get ⟨i, hi⟩)
                (npBroadcastShape (inputs.map (fun t => t.shape)))).data k := by
  have hslen : (inputs.map (fun t => t.shape)).length = inputs.length :=
    List.length_map _ _
  have h2s : 2 ≤ (inputs.map (fun t => t.shape)).length := by
    rw [hslen]
    exact h2
  have hcal := cal_reshape_and_tile_spec (inputs.map (fun t => t.shape))
    h2s hcompat
  set shapes := inputs.map (fun t => t.shape) with hshapes
  set m := maxRankOf shapes with hmdef
  set b := npBroadcastShape shapes with hbdef
  have hne : shapes ≠ [] := by
    intro h
    rw [h] at h2s
    simp at h2s
  have hbl : b.length = m := npBroadcastShape_length shapes hne
  have hmlen : (shapes.map (bcMeta m b)).length = inputs.length := by
    rw [List.length_map]
    exact hslen
  have hmapmap : shapes.map (bcMeta m b)
      = inputs.map (fun t => bcMeta m b t.shape) := by
    rw [hshapes, List.map_map]
    rfl
  have hzlen : (inputs.zip (shapes.map (bcMeta m b))).length
      = inputs.length := by
    simp [List.length_zip, hmlen]
  have hall : ∀ p ∈ inputs.zip (shapes.map (bcMeta m b)),
      (applyMeta p.1 p.2).isSome := by
    intro p hp
    rw [hmapmap] at hp
    obtain ⟨hp1, hp2⟩ := mem_zip_map inputs (fun t => bcMeta m b t.shape) p hp
    have hsmem : p.1.shape ∈ shapes := by
      rw [hshapes]
      exact List.mem_map.mpr ⟨p.1, hp1, rfl⟩
    obtain ⟨out, hout, _⟩ := applyMeta_meta_spec p.1 b p.2
      (by rw [hp2, hbl]; rfl) (by rw [hp2, hbl]; rfl)
      (by rw [hbl]; exact length_le_maxRankOf shapes _ hsmem)
      (by rw [hbl]; exact hcompat _ hsmem)
    exact Option.isSome_iff_exists.mpr ⟨out, hout⟩
  obtain ⟨outs, houts, holen, hoi⟩ :=
    applyMetas_spec (inputs.zip (shapes.map (bcMeta m b))) hall
  refine ⟨outs, ?_, ?_, ?_⟩
  · rw [broad_cast, if_pos h2, ← hshapes, hcal]
    simp only [Option.some_bind]
    rw [if_pos hmlen, houts]
  · rw [holen]
    exact hzlen
  · intro i hi hi'
    have hiz : i < (inputs.zip (shapes.map (bcMeta m b))).length := by
      rw [hzlen]
      exact hi
    have him : i < (shapes.map (bcMeta m b)).length := by
      rw [hmlen]
      exact hi
    have hget := hoi i hiz hi'
    have hzget : (inputs.zip (shapes.map (bcMeta m b))).get ⟨i, hiz⟩
        = (inputs.get ⟨i, hi⟩, (shapes.map (bcMeta m b)).get ⟨i, him⟩) := by
      rw [List.get_eq_getElem, List.get_eq_getElem, List.get_eq_getElem,
        List.getElem_zip]
    have hmget : (shapes.map (bcMeta m b)).get ⟨i, him⟩
        = bcMeta m b ((inputs.get ⟨i, hi⟩).shape) := by
      simp only [List.get_eq_getElem, hshapes, List.getElem_map]
    rw [hzget] at hget
    dsimp only at hget
    rw [hmget] at hget
    have hsmem : (inputs.get ⟨i, hi⟩).shape ∈ shapes := by
      rw [hshapes]
      exact List.mem_map.mpr ⟨inputs.get ⟨i, hi⟩, List.get_mem inputs i hi, rfl⟩
    obtain ⟨out, hout, hequiv⟩ := applyMeta_meta_spec (inputs.get ⟨i, hi⟩) b
      (bcMeta m b ((inputs.get ⟨i, hi⟩).shape))
      (by rw [hbl]; rfl) (by rw [hbl]; rfl)
      (by rw [hbl]; exact length_le_maxRankOf shapes _ hsmem)
      (by rw [hbl]; exact hcompat _ hsmem)
    have hoe : out = outs.get ⟨i, hi'⟩ :=
      Option.some.inj (hout.symm.trans hget)
    rw [hoe] at hequiv
    obtain ⟨hsh, hdat⟩ := hequiv
    constructor
    · rw [hsh]
      rfl
    · intro k hk
      refine hdat k ?_
      rw [hsh]
      exact hk

/-- Witness for C8 at two concrete tensors of shapes `[2,1]` and `[3]`,
broadcast shape `[2,3]`. -/
theorem C8_broadcast_witness :
    2 ≤ ([bcT1, bcT2] : List PTensor).length ∧
    padMaxCompat (([bcT1, bcT2] : List PTensor).map (fun t => t.shape)) ∧
    ∃ outs, broad_cast [bcT1, bcT2] = some outs ∧
      outs.length = ([bcT1, bcT2] : List PTensor).length ∧
      ∀ i (hi : i < ([bcT1, bcT2] : List PTensor).length)
        (hi' : i < outs.length),
        (outs.get ⟨i, hi'⟩).shape
          = npBroadcastShape (([bcT1, bcT2] : List PTensor).map
              (fun t => t.shape)) ∧
        ∀ k, k < (npBroadcastShape (([bcT1, bcT2] : List PTensor).map
            (fun t => t.shape))).prod →
          (outs.get ⟨i, hi'⟩).data k
            = (npBroadcastTo (([bcT1, bcT2] : List PTensor).get ⟨i, hi⟩)
                (npBroadcastShape (([bcT1, bcT2] : List PTensor).map
                  (fun t => t.shape)))).data k :=
  ⟨by decide, by decide,
    C8_broadcast [bcT1, bcT2] (by decide) (by decide)⟩

/-! ### Theorems for C9 and C10 -/

/-- **C9**: for every rank-4 shape the two layout conversions
`shape_nchw_to_nhwc` and `shape_nhwc_to_nchw` are mutually inverse, and both
reject (assert on) shapes whose length is not 4. -/
theorem C9_shape_layout_roundtrip (s : List Int) :
    (s.length = 4 →
      (shape_nchw_to_nhwc s).bind shape_nhwc_to_nchw = some s ∧
      (shape_nhwc_to_nchw s).bind shape_nchw_to_nhwc = some s) ∧
    (s.length ≠ 4 →
      shape_nchw_to_nhwc s = none ∧ shape_nhwc_to_nchw s = none) := by
  rcases s with _ | ⟨a, _ | ⟨b, _ | ⟨c, _ | ⟨d, _ | ⟨e, t⟩⟩⟩⟩⟩ <;>
    simp [shape_nchw_to_nhwc, shape_nhwc_to_nchw]

/-- Witness for C9 at the concrete shapes `[1,3,224,224]` (rank 4) and
`[1,3]` (rank 2). -/
theorem C9_shape_layout_roundtrip_witness :
    ((shape_nchw_to_nhwc [1, 3, 224, 224]).bind shape_nhwc_to_nchw =
        some [1, 3, 224, 224] ∧
      (shape_nhwc_to_nchw [1, 3, 224, 224]).bind shape_nchw_to_nhwc =
        some [1, 3, 224, 224]) ∧
    (shape_nchw_to_nhwc [1, 3] = none ∧ shape_nhwc_to_nchw [1, 3] = none) :=
  ⟨(C9_shape_layout_roundtrip [1, 3, 224, 224]).1 (by decide),
   (C9_shape_layout_roundtrip [1, 3]).2 (by decide)⟩

/-- **C10**: for every even-length ONNX pads list, `onnx_to_tf` produces a
`(spatial_dims+2, 2)` array whose first and last rows are zero, and
`tf_to_onnx` with `as_full = false` recovers exactly the original pads list;
an odd-length pads list is rejected by the assert. -/
theorem C10_pads_roundtrip (pads : List Int) :
    (pads.length % 2 = 0 →
      ∃ rows, onnx_to_tf pads = some rows ∧
        rows.length = pads.length / 2 + 2 ∧
        rows.head? = some (0, 0) ∧
        rows.getLast? = some (0, 0) ∧
        tf_to_onnx rows false = pads) ∧
    (pads.length % 2 ≠ 0 → onnx_to_tf pads = none) := by
  constructor
  · intro heven
    refine ⟨(0, 0) :: (List.zip (pads.take (pads.length / 2))
        (pads.drop (pads.length / 2)) ++ [(0, 0)]), ?_, ?_, ?_, ?_, ?_⟩
    · simp [onnx_to_tf, heven]
    · have hzlen : (List.zip (pads.take (pads.length / 2))
          (pads.drop (pads.length / 2))).length = pads.length / 2 := by
        simp [List.length_zip, List.length_take, List.length_drop]
        omega
      simp [hzlen]
    · rfl
    · rw [show ((0, 0) :: (List.zip (pads.take (pads.length / 2))
          (pads.drop (pads.length / 2)) ++ [(0, 0)]))
          = (((0, 0) :: List.zip (pads.take (pads.length / 2))
              (pads.drop (pads.length / 2))) ++ [((0 : Int), (0 : Int))])
          from rfl,
        List.getLast?_concat]
    · have htake : (pads.take (pads.length / 2)).length = pads.length / 2 := by
        simp [List.length_take]; omega
      have hdrop : (pads.drop (pads.length / 2)).length = pads.length / 2 := by
        simp [List.length_drop]; omega
      have hfst : (List.zip (pads.take (pads.length / 2))
          (pads.drop (pads.length / 2))).map Prod.fst
            = pads.take (pads.length / 2) :=
        List.map_fst_zip _ _ (by rw [htake, hdrop])
      have hsnd : (List.zip (pads.take (pads.length / 2))
          (pads.drop (pads.length / 2))).map Prod.snd
            = pads.drop (pads.length / 2) :=
        List.map_snd_zip _ _ (by rw [htake, hdrop])
      simp only [tf_to_onnx, List.map_cons, List.map_append, List.map_nil,
        List.tail_cons, Bool.false_eq_true, if_false]
      rw [List.dropLast_concat, List.dropLast_concat, hfst, hsnd,
        List.take_append_drop]
  · intro hodd
    simp [onnx_to_tf, hodd]

/-- Witness for C10 at the concrete pads `[1,2,3,4]` (even) and `[1,2,3]`
(odd). -/
theorem C10_pads_roundtrip_witness :
    (∃ rows, onnx_to_tf [1, 2, 3, 4] = some rows ∧
      rows.length = 4 ∧
      rows.head? = some ((0 : Int), (0 : Int)) ∧
      rows.getLast? = some ((0 : Int), (0 : Int)) ∧
      tf_to_onnx rows false = [1, 2, 3, 4]) ∧
    onnx_to_tf [1, 2, 3] = none :=
  ⟨(C10_pads_roundtrip [1, 2, 3, 4]).1 (by decide),
   (C10_pads_roundtrip [1, 2, 3]).2 (by decide)⟩

end CompassParser
